import Mathlib

/-!
Verification of the companion-memory distributed job-scheduling core.

The Python source is shallowly embedded: pure functions become Lean
functions, the DynamoDB table becomes an explicit association list keyed by
the composite primary key, and conditional writes become conditionals on
that state.  Opaque string-valued identifiers (worker ids, user ids, error
messages, payloads, logical ids) are modelled as natural numbers; datetimes
are modelled structurally with the exact ISO-8601 rendering the code relies
on for sort keys.
-/

namespace CompanionMemory

/-! ## Datetime model and ISO-8601 rendering (job_models.py collaborators)

`scheduled_for` values in this codebase are timezone-aware UTC datetimes;
`datetime.isoformat` renders them as
`YYYY-MM-DDTHH:MM:SS[.ffffff]+00:00` (the fractional part is omitted
exactly when `microsecond == 0`).  We model that rendering exactly, and
model `datetime.fromisoformat` on the canonical grammar it inverts. -/

/-- A UTC datetime: the fields `datetime` exposes, microseconds included. -/
structure DT where
  year : Nat
  month : Nat
  day : Nat
  hour : Nat
  minute : Nat
  second : Nat
  usec : Nat
deriving DecidableEq

/-- Gregorian leap-year test, as `calendar.isleap`. -/
def isLeap (y : Nat) : Bool :=
  y % 4 == 0 && (y % 100 != 0 || y % 400 == 0)

/-- Days in a month of the proleptic Gregorian calendar. -/
def daysInMonth (y m : Nat) : Nat :=
  if m = 2 then (if isLeap y then 29 else 28)
  else if m = 4 ∨ m = 6 ∨ m = 9 ∨ m = 11 then 30
  else 31

/-- The field ranges `datetime` enforces on construction. -/
def WFdt (t : DT) : Prop :=
  1 ≤ t.year ∧ t.year ≤ 9999 ∧ 1 ≤ t.month ∧ t.month ≤ 12 ∧
  1 ≤ t.day ∧ t.day ≤ daysInMonth t.year t.month ∧
  t.hour ≤ 23 ∧ t.minute ≤ 59 ∧ t.second ≤ 59 ∧ t.usec ≤ 999999

instance (t : DT) : Decidable (WFdt t) := by
  unfold WFdt; exact inferInstance

/-- The character a decimal digit renders to. -/
def digitChar (d : Nat) : Char := Char.ofNat (48 + d)

/-- Two-digit zero-padded decimal rendering. -/
def pad2 (n : Nat) : List Char := [digitChar (n / 10), digitChar (n % 10)]

/-- Four-digit zero-padded decimal rendering. -/
def pad4 (n : Nat) : List Char := pad2 (n / 100) ++ pad2 (n % 100)

/-- Six-digit zero-padded decimal rendering. -/
def pad6 (n : Nat) : List Char := pad2 (n / 10000) ++ pad4 (n % 10000)

/-- Lowercase hexadecimal digit character. -/
def hexChar (d : Nat) : Char :=
  if d < 10 then Char.ofNat (48 + d) else Char.ofNat (87 + d)

/-- Fixed-width lowercase hexadecimal rendering, most significant digit
first. -/
def hexPad : (w : Nat) → Nat → List Char
  | 0, _ => []
  | w + 1, n => hexChar (n / 16 ^ w) :: hexPad w (n % 16 ^ w)

/-- The fixed `+00:00` offset suffix `isoformat` appends to aware UTC
datetimes. -/
def utcSuffix : List Char := ['+', '0', '0', ':', '0', '0']

/-- Rendering of `datetime.isoformat()` for an aware UTC datetime. -/
def isoformat (t : DT) : List Char :=
  pad4 t.year ++ '-' :: pad2 t.month ++ '-' :: pad2 t.day ++
    'T' :: pad2 t.hour ++ ':' :: pad2 t.minute ++ ':' :: pad2 t.second ++
    (if t.usec = 0 then [] else '.' :: pad6 t.usec) ++ utcSuffix

/-- A 128-bit UUID is modelled by its integer value. -/
def WFuuid (v : Nat) : Prop := v < 2 ^ 128

instance (v : Nat) : Decidable (WFuuid v) := by
  unfold WFuuid; exact inferInstance

/-- The canonical 8-4-4-4-12 lowercase rendering of `str(uuid)`. -/
def uuidStr (v : Nat) : List Char :=
  hexPad 8 (v / 16 ^ 24) ++ '-' :: hexPad 4 (v / 16 ^ 20 % 16 ^ 4) ++
    '-' :: hexPad 4 (v / 16 ^ 16 % 16 ^ 4) ++
    '-' :: hexPad 4 (v / 16 ^ 12 % 16 ^ 4) ++ '-' :: hexPad 12 (v % 16 ^ 12)

/-- The literal word `scheduled` used by the sort-key format. -/
def scheduledWord : List Char := ['s', 'c', 'h', 'e', 'd', 'u', 'l', 'e', 'd']

/-- `make_job_sk` from job_models.py:
`f'scheduled#{scheduled_for.isoformat()}#{job_id}'`. -/
def make_job_sk (t : DT) (id : Nat) : List Char :=
  scheduledWord ++ '#' :: isoformat t ++ '#' :: uuidStr id

/-! ## Parsing (the inverse codec used by `parse_job_sk`) -/

/-- Parse one decimal digit character (codes 48–57). -/
def parseDigit (c : Char) : Option Nat :=
  if 48 ≤ c.toNat ∧ c.toNat ≤ 57 then some (c.toNat - 48) else none

/-- Parse one lowercase hexadecimal digit character (codes 48–57 and
97–102). -/
def parseHexDigit (c : Char) : Option Nat :=
  if 48 ≤ c.toNat ∧ c.toNat ≤ 57 then some (c.toNat - 48)
  else if 97 ≤ c.toNat ∧ c.toNat ≤ 102 then some (c.toNat - 87)
  else none

/-- Parse exactly two decimal digits. -/
def parse2 : List Char → Option (Nat × List Char)
  | a :: b :: r =>
    match parseDigit a, parseDigit b with
    | some x, some y => some (10 * x + y, r)
    | _, _ => none
  | _ => none

/-- Parse exactly four decimal digits. -/
def parse4 (s : List Char) : Option (Nat × List Char) :=
  match parse2 s with
  | some (a, r) =>
    match parse2 r with
    | some (b, r') => some (100 * a + b, r')
    | none => none
  | none => none

/-- Parse exactly six decimal digits. -/
def parse6 (s : List Char) : Option (Nat × List Char) :=
  match parse2 s with
  | some (a, r) =>
    match parse4 r with
    | some (b, r') => some (10000 * a + b, r')
    | none => none
  | none => none

/-- Consume one expected character. -/
def expectChar (c : Char) : List Char → Option (List Char)
  | x :: xs => if x = c then some xs else none
  | [] => none

/-- Parse the optional canonical fractional-seconds part: absent when the
microsecond field is zero, `.ffffff` otherwise. -/
def parseFrac : List Char → Option (Nat × List Char)
  | c :: r =>
    if c = '.' then
      match parse6 r with
      | some (u, r') => if u = 0 then none else some (u, r')
      | none => none
    else some (0, c :: r)
  | [] => some (0, [])

/-- Parse the `YYYY-MM-DD` date prefix. -/
def parseDate (s : List Char) : Option (Nat × Nat × Nat × List Char) :=
  match parse4 s with
  | none => none
  | some (y, r1) =>
    match expectChar '-' r1 with
    | none => none
    | some r2 =>
      match parse2 r2 with
      | none => none
      | some (mo, r3) =>
        match expectChar '-' r3 with
        | none => none
        | some r4 =>
          match parse2 r4 with
          | none => none
          | some (d, r5) => some (y, mo, d, r5)

/-- Parse the `HH:MM:SS` time-of-day part. -/
def parseTime (s : List Char) : Option (Nat × Nat × Nat × List Char) :=
  match parse2 s with
  | none => none
  | some (h, r1) =>
    match expectChar ':' r1 with
    | none => none
    | some r2 =>
      match parse2 r2 with
      | none => none
      | some (mi, r3) =>
        match expectChar ':' r3 with
        | none => none
        | some r4 =>
          match parse2 r4 with
          | none => none
          | some (se, r5) => some (h, mi, se, r5)

/-- Model of `datetime.fromisoformat` on the canonical aware-UTC grammar
produced by `isoformat`. -/
def isoParse (s : List Char) : Option DT :=
  match parseDate s with
  | none => none
  | some (y, mo, d, r5) =>
    match expectChar 'T' r5 with
    | none => none
    | some r6 =>
      match parseTime r6 with
      | none => none
      | some (h, mi, se, r11) =>
        match parseFrac r11 with
        | none => none
        | some (us, r12) =>
          if r12 = utcSuffix then
            if WFdt ⟨y, mo, d, h, mi, se, us⟩ then
              some ⟨y, mo, d, h, mi, se, us⟩
            else none
          else none

/-- Accumulating fixed-width hexadecimal parser. -/
def parseHexAux : Nat → Nat → List Char → Option (Nat × List Char)
  | 0, acc, s => some (acc, s)
  | w + 1, acc, s =>
    match s with
    | [] => none
    | c :: r =>
      match parseHexDigit c with
      | some d => parseHexAux w (16 * acc + d) r
      | none => none

/-- Parse exactly `w` lowercase hexadecimal digits. -/
def parseHexN (w : Nat) (s : List Char) : Option (Nat × List Char) :=
  parseHexAux w 0 s

/-- Model of the `UUID` constructor on the canonical 8-4-4-4-12 lowercase
rendering. -/
def uuidParse (s : List Char) : Option Nat :=
  match parseHexN 8 s with
  | none => none
  | some (a, r1) =>
    match expectChar '-' r1 with
    | none => none
    | some r2 =>
      match parseHexN 4 r2 with
      | none => none
      | some (b, r3) =>
        match expectChar '-' r3 with
        | none => none
        | some r4 =>
          match parseHexN 4 r4 with
          | none => none
          | some (c, r5) =>
            match expectChar '-' r5 with
            | none => none
            | some r6 =>
              match parseHexN 4 r6 with
              | none => none
              | some (d, r7) =>
                match expectChar '-' r7 with
                | none => none
                | some r8 =>
                  match parseHexN 12 r8 with
                  | none => none
                  | some (e, r9) =>
                    if r9 = [] then
                      some ((((a * 16 ^ 4 + b) * 16 ^ 4 + c) * 16 ^ 4 + d) *
                        16 ^ 12 + e)
                    else none

/-- Python's `str.split` on a single separator character. -/
def splitOnChar (c : Char) : List Char → List (List Char)
  | [] => [[]]
  | x :: xs =>
    match splitOnChar c xs with
    | [] => [[]]
    | y :: ys => if x = c then [] :: y :: ys else (x :: y) :: ys

/-- `parse_job_sk` from job_models.py: split on `#`, require exactly three
parts headed by `scheduled`, then parse the timestamp and the UUID;
`none` models the raised `ValueError`. -/
def parse_job_sk (sk : List Char) : Option (DT × Nat) :=
  match splitOnChar '#' sk with
  | [p0, p1, p2] =>
    if p0 = scheduledWord then
      match isoParse p1, uuidParse p2 with
      | some t, some v => some (t, v)
      | _, _ => none
    else none
  | _ => none

/-! ## Civil-calendar arithmetic (model of `datetime + timedelta`)

`timedelta` addition on aware UTC datetimes is exact elapsed-time
arithmetic; we realise it through epoch seconds using the standard
civil-from-days correspondence for the proleptic Gregorian calendar. -/

/-- Days since 1970-01-01 of a civil date. -/
def daysFromCivil (y m d : Int) : Int :=
  let y' := if m ≤ 2 then y - 1 else y
  let era := y'.ediv 400
  let yoe := y' - era * 400
  let mp := (m + 9).emod 12
  let doy := (153 * mp + 2).ediv 5 + d - 1
  let doe := yoe * 365 + yoe.ediv 4 - yoe.ediv 100 + doy
  era * 146097 + doe - 719468

/-- Civil date of a day count since 1970-01-01. -/
def civilFromDays (z : Int) : Int × Int × Int :=
  let z' := z + 719468
  let era := z'.ediv 146097
  let doe := z' - era * 146097
  let yoe := (doe - doe.ediv 1460 + doe.ediv 36524 - doe.ediv 146096).ediv 365
  let y := yoe + era * 400
  let doy := doe - (365 * yoe + yoe.ediv 4 - yoe.ediv 100)
  let mp := (5 * doy + 2).ediv 153
  let d := doy - (153 * mp + 2).ediv 5 + 1
  let m := if mp < 10 then mp + 3 else mp - 9
  (if m ≤ 2 then y + 1 else y, m, d)

/-- Seconds since the epoch of a UTC datetime (microseconds carried
separately). -/
def toEpochSec (t : DT) : Int :=
  86400 * daysFromCivil (t.year : Int) (t.month : Int) (t.day : Int) +
    3600 * (t.hour : Int) + 60 * (t.minute : Int) + (t.second : Int)

/-- `t + timedelta(seconds=secs)` for a whole number of seconds. -/
def addSeconds (t : DT) (secs : Nat) : DT :=
  let tot := toEpochSec t + (secs : Int)
  let days := tot.ediv 86400
  let sod := tot.emod 86400
  let c := civilFromDays days
  ⟨c.1.toNat, c.2.1.toNat, c.2.2.toNat, (sod.ediv 3600).toNat,
   ((sod.emod 3600).ediv 60).toNat, (sod.emod 60).toNat, t.usec⟩

/-- Strict chronological order on datetimes (epoch seconds, then
microseconds). -/
def dtLtB (a b : DT) : Bool :=
  toEpochSec a < toEpochSec b ∨ (toEpochSec a = toEpochSec b ∧ a.usec < b.usec)

/-! ## Job records and the job partition of the table (job_models.py,
job_table.py)

The DynamoDB table is an association list from sort key to an attribute
map; `PK` is the constant `job` for every row of this partition, so it is
left implicit.  An attribute set to `NULL` by an update expression reads
back exactly like an absent attribute everywhere in this codebase
(`item.get`), so both are modelled as `none`. -/

/-- Job status strings. -/
inductive Status where
  | pending
  | in_progress
  | completed
  | failed
  | dead_letter
  | cancelled
deriving DecidableEq

/-- The `ScheduledJob` pydantic model. -/
structure ScheduledJob where
  job_id : Nat
  job_type : Nat
  payload : Nat
  scheduled_for : DT
  status : Status
  locked_by : Option Nat := none
  lock_expires_at : Option DT := none
  attempts : Nat := 0
  last_error : Option Nat := none
  created_at : DT
  completed_at : Option DT := none
deriving DecidableEq

/-- One stored item of the job partition: every attribute optional, as in
the underlying store. -/
structure JobItem where
  job_id : Option Nat := none
  job_type : Option Nat := none
  payload : Option Nat := none
  scheduled_for : Option DT := none
  status : Option Status := none
  locked_by : Option Nat := none
  lock_expires_at : Option DT := none
  attempts : Option Nat := none
  last_error : Option Nat := none
  created_at : Option DT := none
  completed_at : Option DT := none
deriving DecidableEq

/-- Sort keys. -/
abbrev Sk := List Char

/-- The job partition. -/
abbrev JobTbl := List (Sk × JobItem)

/-- `put_item`: full replacement of the item at the key. -/
def putItem (tbl : JobTbl) (sk : Sk) (it : JobItem) : JobTbl :=
  tbl.filter (fun r => r.1 ≠ sk) ++ [(sk, it)]

/-- Read the item stored at a key. -/
def findItem (tbl : JobTbl) (sk : Sk) : Option JobItem :=
  (tbl.find? (fun r => r.1 = sk)).map (fun r => r.2)

/-- `JobTable.put_job`: writes every persisted field, optional fields
omitted when `None`. -/
def put_job (tbl : JobTbl) (job : ScheduledJob) : JobTbl :=
  putItem tbl (make_job_sk job.scheduled_for job.job_id)
    { job_id := some job.job_id
      job_type := some job.job_type
      payload := some job.payload
      scheduled_for := some job.scheduled_for
      status := some job.status
      attempts := some job.attempts
      created_at := some job.created_at
      locked_by := job.locked_by
      lock_expires_at := job.lock_expires_at
      last_error := job.last_error
      completed_at := job.completed_at }

/-- The keyword arguments `update_job_status` is called with across the
worker: outer `none` = argument not passed, inner value = the value the
`SET` expression writes (`some none` = explicit `NULL`). -/
structure JobUpd where
  attempts : Option Nat := none
  last_error : Option Nat := none
  locked_by : Option (Option Nat) := none
  lock_expires_at : Option (Option DT) := none
  completed_at : Option (Option DT) := none
deriving DecidableEq

/-- Apply a `SET status = :status, …` update expression to an item. -/
def applyUpd (it : JobItem) (st : Status) (u : JobUpd) : JobItem :=
  { it with
    status := some st
    attempts := match u.attempts with | some v => some v | none => it.attempts
    last_error := match u.last_error with | some v => some v | none => it.last_error
    locked_by := match u.locked_by with | some v => v | none => it.locked_by
    lock_expires_at :=
      match u.lock_expires_at with | some v => v | none => it.lock_expires_at
    completed_at :=
      match u.completed_at with | some v => v | none => it.completed_at }

/-- The empty attribute map. -/
def emptyItem : JobItem := {}

/-- `JobTable.update_job_status`: an UNCONDITIONAL `update_item` (no
`ConditionExpression`); on a missing key DynamoDB upserts an item holding
only the written attributes. -/
def update_job_status (tbl : JobTbl) (job_id : Nat) (scheduled_for : DT)
    (st : Status) (u : JobUpd) : JobTbl :=
  let sk := make_job_sk scheduled_for job_id
  match findItem tbl sk with
  | some it => putItem tbl sk (applyUpd it st u)
  | none => putItem tbl sk (applyUpd emptyItem st u)

/-! ## Retry policy (retry_policy.py) -/

/-- `RetryPolicy.__init__` defaults. -/
structure RetryPolicy where
  base_delay_seconds : Nat := 60
  max_attempts : Nat := 5
deriving DecidableEq

/-- `RetryPolicy.calculate_delay`: seconds of exponential backoff. -/
def calculate_delay (p : RetryPolicy) (attempts : Nat) : Nat :=
  p.base_delay_seconds * 2 ^ (attempts - 1)

/-- `RetryPolicy.calculate_next_run`. -/
def calculate_next_run (p : RetryPolicy) (now : DT) (attempts : Nat) : DT :=
  addSeconds now (calculate_delay p attempts)

/-- `RetryPolicy.should_retry`. -/
def should_retry (p : RetryPolicy) (attempts : Nat) : Bool :=
  attempts < p.max_attempts

/-! ## Worker (job_worker.py) -/

/-- `JobWorker.__init__` configuration. -/
structure WorkerCfg where
  worker_id : Nat
  polling_limit : Nat := 25
  lock_timeout_minutes : Nat := 10
  policy : RetryPolicy := {}
deriving DecidableEq

/-- `JobWorker._is_job_eligible`: pending, and lock absent or expired. -/
def is_job_eligible (job : ScheduledJob) (now : DT) : Bool :=
  if job.status ≠ Status.pending then false
  else
    match job.lock_expires_at with
    | some e => !(dtLtB now e)
    | none => true

/-- `JobWorker._try_claim_job`: writes `in_progress`, `locked_by` and
`lock_expires_at = now + lock_timeout` through the unconditional
`update_job_status`, and returns `True` (the `except` arm is unreachable
for a write that carries no condition). -/
def try_claim_job (w : WorkerCfg) (tbl : JobTbl) (job : ScheduledJob)
    (now : DT) : JobTbl × Bool :=
  (update_job_status tbl job.job_id job.scheduled_for Status.in_progress
    { locked_by := some (some w.worker_id)
      lock_expires_at := some (some (addSeconds now (60 * w.lock_timeout_minutes))) },
   true)

/-- `JobWorker._reschedule_job`: mark the current row failed, then put a
fresh pending row at the new due time. -/
def reschedule_job (tbl : JobTbl) (job : ScheduledJob) (next_run : DT)
    (attempts : Nat) (error_message : Nat) : JobTbl :=
  let t1 := update_job_status tbl job.job_id job.scheduled_for Status.failed
    { attempts := some attempts, last_error := some error_message
      locked_by := some none, lock_expires_at := some none }
  put_job t1
    ⟨job.job_id, job.job_type, job.payload, next_run, Status.pending,
     none, none, attempts, some error_message, job.created_at, none⟩

/-- `JobWorker._handle_job_failure`: bump attempts, then retry with
backoff or dead-letter. -/
def handle_job_failure (w : WorkerCfg) (tbl : JobTbl) (job : ScheduledJob)
    (error_message : Nat) (now : DT) : JobTbl :=
  let new_attempts := job.attempts + 1
  if should_retry w.policy new_attempts then
    let next_run := calculate_next_run w.policy now new_attempts
    reschedule_job tbl job next_run new_attempts error_message
  else
    update_job_status tbl job.job_id job.scheduled_for Status.dead_letter
      { attempts := some new_attempts, last_error := some error_message
        locked_by := some none, lock_expires_at := some none }

/-! ## DynamoDB sort-key order and the due-jobs query (job_table.py) -/

/-- Bytewise (lexicographic) order on ASCII sort keys, as the range key of
the table is ordered. -/
def lexLe : List Char → List Char → Bool
  | [], _ => true
  | _ :: _, [] => false
  | a :: as, b :: bs => if a = b then lexLe as bs else decide (a < b)

/-- Strict bytewise order on sort keys. -/
def lexLt : List Char → List Char → Bool
  | [], [] => false
  | [], _ :: _ => true
  | _ :: _, [] => false
  | a :: as, b :: bs => if a = b then lexLt as bs else decide (a < b)

/-- Insert a row into a key-ascending list. -/
def insertBySk (r : Sk × JobItem) : JobTbl → JobTbl
  | [] => [r]
  | x :: xs => if lexLe r.1 x.1 then r :: x :: xs else x :: insertBySk r xs

/-- The key-ascending relisting of the partition, as a query scans it. -/
def sortBySk (tbl : JobTbl) : JobTbl := tbl.foldr insertBySk []

/-- The due-jobs upper bound `f'scheduled#{now.isoformat()}#z'`. -/
def dueQuerySk (now : DT) : Sk := scheduledWord ++ '#' :: isoformat now ++ ['#', 'z']

/-- `JobTable.get_due_jobs`: range query `SK ≤ dueQuerySk now` in
ascending key order, page limit applied before the server-side
`status = pending` filter — exactly DynamoDB's `Limit` semantics. -/
def get_due_jobs (tbl : JobTbl) (now : DT) (limit : Nat) : JobTbl :=
  let q := dueQuerySk now
  (((sortBySk tbl).filter (fun r => lexLe r.1 q)).take limit).filter
    (fun r => r.2.status = some Status.pending)

/-- Statuses the retention sweep is allowed to delete. -/
def finishedStatus (s : Option Status) : Bool :=
  s = some Status.completed ∨ s = some Status.failed ∨
    s = some Status.dead_letter ∨ s = some Status.cancelled

/-- Delete the item at a key. -/
def deleteItem (tbl : JobTbl) (sk : Sk) : JobTbl :=
  tbl.filter (fun r => r.1 ≠ sk)

/-- Modelled from the spec: the retention sweep's sort-key upper bound
`"scheduled#" + ISO8601(now − Δ) + "#"`; the cutoff instant `now − Δ` is
taken as an argument. -/
def cleanupBound (cutoff : DT) : Sk :=
  scheduledWord ++ '#' :: isoformat cutoff ++ ['#']

/-- Modelled from the spec: `JobTable.cleanup_old_jobs` is called from
`DistributedScheduler._cleanup_old_jobs` and exercised by the repository's
tests but its body is not among the provided sources.  Per the spec it
queries items with `SK < "scheduled#" + ISO8601(now − Δ) + "#"` and
`status ∈ {completed, failed, dead_letter, cancelled}`, deletes each by
key, and returns the number deleted. -/
def cleanup_old_jobs (tbl : JobTbl) (cutoff : DT) : JobTbl × Nat :=
  let victims :=
    (sortBySk tbl).filter
      (fun r => lexLt r.1 (cleanupBound cutoff) && finishedStatus r.2.status)
  (victims.foldl (fun t v => deleteItem t v.1) tbl, victims.length)

/-! ## Deduplication index (deduplication.py) -/

/-- A reservation item: the `job_pk` / `job_sk` attributes pointing at the
reserved job record. -/
structure ResItem where
  job_pk : List Char
  job_sk : List Char
deriving DecidableEq

/-- A reservation key: `(logical_id, date-bucket)`, both opaque. -/
abbrev ResKey := Nat × Nat

/-- The single-table state the deduplication paths touch: the reservation
partition and the job partition. -/
structure DedupSt where
  res : List (ResKey × ResItem)
  jobs : JobTbl
deriving DecidableEq

/-- The constant job partition key string. -/
def jobPkLit : List Char := ['j', 'o', 'b']

/-- Whether a reservation item exists at a key — the state the
`attribute_not_exists(PK)` condition of the put tests. -/
def hasRes (s : DedupSt) (k : ResKey) : Bool :=
  s.res.any (fun r => r.1 = k)

/-- `DeduplicationIndex.try_reserve`: conditional put with
`attribute_not_exists(PK)`; `ConditionalCheckFailedException` maps to
`False`, any other client error re-raises (`fault` injects such an
error). -/
def try_reserve (s : DedupSt) (logical_id date : Nat) (jpk jsk : List Char)
    (fault : Bool) : Except Unit (DedupSt × Bool) :=
  if fault then Except.error ()
  else if hasRes s (logical_id, date) then
    Except.ok (s, false)
  else
    Except.ok ({ s with res := s.res ++ [((logical_id, date), ⟨jpk, jsk⟩)] }, true)

/-- `DeduplicationIndex.schedule_if_needed`: reserve first, and only on a
won reservation store the job. -/
def schedule_if_needed (s : DedupSt) (job : ScheduledJob) (logical_id date : Nat)
    (fault : Bool) : Except Unit (DedupSt × Bool) :=
  let job_sk := make_job_sk job.scheduled_for job.job_id
  match try_reserve s logical_id date jobPkLit job_sk fault with
  | Except.error e => Except.error e
  | Except.ok (s', true) => Except.ok ({ s' with jobs := put_job s'.jobs job }, true)
  | Except.ok (s', false) => Except.ok (s', false)

/-- One invocation against the deduplication index, as issued by any
process at any time. -/
inductive DOp where
  | tr (logical_id date : Nat) (jpk jsk : List Char) (fault : Bool)
  | sin (job : ScheduledJob) (logical_id date : Nat) (fault : Bool)

/-- Execute one invocation; a re-raised store error leaves no result and,
the put having failed, no state change. -/
def execOp (s : DedupSt) : DOp → DedupSt × Except Unit Bool
  | DOp.tr l d jpk jsk f =>
    match try_reserve s l d jpk jsk f with
    | Except.error e => (s, Except.error e)
    | Except.ok (s', b) => (s', Except.ok b)
  | DOp.sin job l d f =>
    match schedule_if_needed s job l d f with
    | Except.error e => (s, Except.error e)
    | Except.ok (s', b) => (s', Except.ok b)

/-- Run a whole history of invocations, recording each result. -/
def runOps : DedupSt → List DOp → List (DOp × Except Unit Bool)
  | _, [] => []
  | s, op :: ops =>
    let p := execOp s op
    (op, p.2) :: runOps p.1 ops

/-- The reservation key an invocation targets. -/
def opKey : DOp → ResKey
  | DOp.tr l d _ _ _ => (l, d)
  | DOp.sin _ l d _ => (l, d)

/-- How many invocations on a given key won the reservation in a recorded
history. -/
def succCount (k : ResKey) (trace : List (DOp × Except Unit Bool)) : Nat :=
  trace.countP (fun p =>
    decide (opKey p.1 = k) &&
      match p.2 with
      | Except.ok b => b
      | Except.error _ => false)

/-! ## The periodic enqueue tasks (daily_summary_scheduler.py,
work_sampling_scheduler.py)

Both tasks are modelled per user / per slot; the externally computed
inputs (the user's next local 07:00 in UTC, the sampled slot time, the
freshly generated UUID, the logical id and local-date bucket) are
arguments. -/

/-- Opaque `job_type` tag for `daily_summary`. -/
def daily_summary_tag : Nat := 1

/-- Opaque `job_type` tag for `work_sampling_prompt`. -/
def work_sampling_tag : Nat := 2

/-- The `job_sk` string `schedule_daily_summaries` passes to
`try_reserve`: `f'scheduled#{next_7am_utc.isoformat()}'` — note: no third
segment. -/
def daily_res_sk (next7 : DT) : List Char :=
  scheduledWord ++ '#' :: isoformat next7

/-- The body of the per-user loop of `schedule_daily_summaries`: reserve
under the logical id and local date, and on success create the job with a
UUID generated AFTER the reservation. -/
def schedule_daily_summary_user (s : DedupSt) (logical_id date : Nat)
    (user_payload : Nat) (next7 : DT) (new_uuid : Nat) (now_utc : DT) :
    DedupSt × Bool :=
  let job : ScheduledJob :=
    ⟨new_uuid, daily_summary_tag, user_payload, next7, Status.pending,
     none, none, 0, none, now_utc, none⟩
  match try_reserve s logical_id date jobPkLit (daily_res_sk next7) false with
  | Except.ok (s', true) => ({ s' with jobs := put_job s'.jobs job }, true)
  | Except.ok (s', false) => (s', false)
  | Except.error _ => (s, false)

/-- The body of the per-slot loop of
`_schedule_user_work_sampling_jobs`: build the job, reserve with
`job_sk = make_job_sk(random_time_utc, job_id)`, and on success store
it. -/
def schedule_work_sampling_slot (s : DedupSt) (logical_id date : Nat)
    (payload : Nat) (slot_time : DT) (new_uuid : Nat) (now_utc : DT) :
    DedupSt × Bool :=
  let job : ScheduledJob :=
    ⟨new_uuid, work_sampling_tag, payload, slot_time, Status.pending,
     none, none, 0, none, now_utc, none⟩
  match try_reserve s logical_id date jobPkLit
      (make_job_sk slot_time new_uuid) false with
  | Except.ok (s', true) => ({ s' with jobs := put_job s'.jobs job }, true)
  | Except.ok (s', false) => (s', false)
  | Except.error _ => (s, false)

/-! ## Scheduler leader lease (scheduler.py `SchedulerLock`)

The lease record at `(system#scheduler, lock#main)`; `instance_info` is a
diagnostic blob and is omitted. -/

/-- The stored lease record. -/
structure LeaseRec where
  process_id : Nat
  timestamp : Int
  ttl : Int
deriving DecidableEq

/-- Local lock state of one process. -/
structure LockSt where
  process_id : Nat
  lock_acquired : Bool
deriving DecidableEq

/-- `SchedulerLock.acquire`: conditional put succeeding when no lease
exists or the stored timestamp is stale (older than 60 s). -/
def acquire (st : LockSt) (store : Option LeaseRec) (now : Int) :
    LockSt × Option LeaseRec × Bool :=
  let fresh : LeaseRec := ⟨st.process_id, now, now + 300⟩
  match store with
  | none => ({ st with lock_acquired := true }, some fresh, true)
  | some rec =>
    if rec.timestamp < now - 60 then
      ({ st with lock_acquired := true }, some fresh, true)
    else (st, store, false)

/-- `SchedulerLock.refresh`: nothing is written unless the lease is
locally held; the update is conditioned on `process_id = :process_id`, and
a failed condition clears the local flag. -/
def refresh (st : LockSt) (store : Option LeaseRec) (now : Int) :
    LockSt × Option LeaseRec × Bool :=
  if st.lock_acquired = false then (st, store, false)
  else
    match store with
    | some rec =>
      if rec.process_id = st.process_id then
        (st, some { rec with timestamp := now, ttl := now + 300 }, true)
      else ({ st with lock_acquired := false }, store, false)
    | none => ({ st with lock_acquired := false }, store, false)

/-- `SchedulerLock.release`: conditional delete on `process_id`; a failed
condition is swallowed; the local flag is always cleared on exit. -/
def release (st : LockSt) (store : Option LeaseRec) :
    LockSt × Option LeaseRec :=
  if st.lock_acquired = false then (st, store)
  else
    match store with
    | some rec =>
      if rec.process_id = st.process_id then
        ({ st with lock_acquired := false }, none)
      else ({ st with lock_acquired := false }, store)
    | none => ({ st with lock_acquired := false }, store)

/-! ## Next-7am computation (daily_summary_scheduler.py)

`get_next_7am_utc` is modelled over a fixed-offset timezone — per the
spec the timezone database is an external collaborator resolving a name to
a UTC-offset function; instants are integer microseconds since the epoch
and `off` is the zone's offset in microseconds. -/

/-- Microseconds per civil day. -/
def usPerDay : Int := 86400000000

/-- Microseconds from local midnight to 07:00:00. -/
def sevenAmUs : Int := 25200000000

/-- `get_next_7am_utc`: convert to local wall time, take today's 07:00,
roll to tomorrow when already reached, convert back to UTC. -/
def get_next_7am_utc (off : Int) (now_utc : Int) : Int :=
  let now_local := now_utc + off
  let today7 := now_local / usPerDay * usPerDay + sevenAmUs
  let next7 := if today7 ≤ now_local then today7 + usPerDay else today7
  next7 - off

/-! ## Concrete sample values used by witnesses -/

/-- Sample instant. -/
def dt0 : DT := ⟨2025, 7, 16, 0, 30, 0, 0⟩

/-- Sample later instant. -/
def dt1 : DT := ⟨2025, 7, 16, 1, 0, 0, 0⟩

/-- Sample instant ten days before `dtCut + 3`. -/
def dtOld : DT := ⟨2025, 7, 6, 12, 0, 0, 0⟩

/-- Sample instant three days old. -/
def dtRecent : DT := ⟨2025, 7, 13, 12, 0, 0, 0⟩

/-- Sample retention cutoff, seven days before 2025-07-16T12:00. -/
def dtCut : DT := ⟨2025, 7, 9, 12, 0, 0, 0⟩

/-- Sample 128-bit UUID value. -/
def uu0 : Nat := 0x123e4567e89b12d3a456426614174000

/-- Sample pending job. -/
def job0 : ScheduledJob :=
  ⟨7, 1, 0, dt0, Status.pending, none, none, 0, none, dt0, none⟩

/-- Sample worker. -/
def w100 : WorkerCfg := { worker_id := 100 }

/-- Second sample worker racing against the first. -/
def w200 : WorkerCfg := { worker_id := 200 }

/-- Table holding exactly the sample pending job. -/
def tblC1 : JobTbl := put_job [] job0

/-- A stored row with the given schedule, id and status. -/
def sampleRow (t : DT) (id : Nat) (st : Status) : Sk × JobItem :=
  (make_job_sk t id,
   { job_id := some id, scheduled_for := some t, status := some st })

/-- The retention-sweep sample table: one job of every status ten days
old, plus a three-day-old failed job. -/
def tblC2 : JobTbl :=
  [sampleRow dtOld 1 Status.pending,
   sampleRow dtOld 2 Status.in_progress,
   sampleRow dtOld 3 Status.completed,
   sampleRow dtOld 4 Status.failed,
   sampleRow dtOld 5 Status.dead_letter,
   sampleRow dtOld 6 Status.cancelled,
   sampleRow dtRecent 7 Status.failed]

/-! # Theorems -/

/-- C8: for every `attempts ≥ 1`, `calculate_delay` returns
`base_delay_seconds · 2^(attempts−1)` seconds (equivalently: `base_delay`
at the first failure, doubling with each further attempt),
`calculate_next_run now attempts = now + delay`, and `should_retry
attempts` holds exactly when `attempts < max_attempts`; in particular
`should_retry max_attempts` is false and `should_retry (max_attempts − 1)`
is true. -/
theorem claim_C8_retry_policy (p : RetryPolicy) (now : DT) (attempts : Nat)
    (h1 : 1 ≤ attempts) :
    calculate_delay p attempts = p.base_delay_seconds * 2 ^ (attempts - 1) ∧
    calculate_delay p 1 = p.base_delay_seconds ∧
    calculate_delay p (attempts + 1) = 2 * calculate_delay p attempts ∧
    calculate_next_run p now attempts =
      addSeconds now (p.base_delay_seconds * 2 ^ (attempts - 1)) ∧
    (should_retry p attempts = true ↔ attempts < p.max_attempts) ∧
    should_retry p p.max_attempts = false ∧
    (1 ≤ p.max_attempts → should_retry p (p.max_attempts - 1) = true) := by
  have h2 : attempts - 1 + 1 = attempts := Nat.sub_add_cancel h1
  refine ⟨rfl, by simp [calculate_delay], ?_, rfl, by simp [should_retry],
    by simp [should_retry], ?_⟩
  · show p.base_delay_seconds * 2 ^ (attempts + 1 - 1) =
      2 * (p.base_delay_seconds * 2 ^ (attempts - 1))
    calc p.base_delay_seconds * 2 ^ (attempts + 1 - 1)
        = p.base_delay_seconds * 2 ^ (attempts - 1 + 1) := by rw [h2]; simp
      _ = 2 * (p.base_delay_seconds * 2 ^ (attempts - 1)) := by
          rw [pow_succ]; ring
  · intro hm
    simp only [should_retry, decide_eq_true_eq]
    omega

/-- Witness for C8: the default policy at `attempts = 3`, and the retry
boundary below the default `max_attempts = 5`. -/
theorem claim_C8_retry_policy_witness :
    1 ≤ 3 ∧ should_retry ({} : RetryPolicy) 4 = true :=
  ⟨by decide,
   (claim_C8_retry_policy ({} : RetryPolicy) dt0 3 (by decide)).2.2.2.2.2.2
     (by decide)⟩

/-- C10: over a fixed-offset timezone, `get_next_7am_utc` returns an
instant strictly later than `now_utc` whose local reading is 07:00:00
exactly, and when `now_utc` itself reads 07:00:00 local the result is one
full day later, never the current instant. -/
theorem claim_C10_get_next_7am_utc (off now_utc : Int) :
    now_utc < get_next_7am_utc off now_utc ∧
    (get_next_7am_utc off now_utc + off) % usPerDay = sevenAmUs ∧
    ((now_utc + off) % usPerDay = sevenAmUs →
      get_next_7am_utc off now_utc = now_utc + usPerDay) := by
  unfold get_next_7am_utc usPerDay sevenAmUs
  dsimp only
  refine ⟨?_, ?_, ?_⟩
  · split <;> omega
  · split <;> omega
  · intro h
    split <;> omega

/-- Witness for C10: offset zero, `now_utc` reading exactly 07:00:00. -/
theorem claim_C10_get_next_7am_utc_witness :
    ((25200000000 : Int) + 0) % usPerDay = sevenAmUs ∧
    get_next_7am_utc 0 25200000000 = 25200000000 + usPerDay :=
  ⟨by decide, (claim_C10_get_next_7am_utc 0 25200000000).2.2 (by decide)⟩

/-- C7: `refresh` returns false without touching the store when the lease
is not locally held; when held it rewrites the lease with
`timestamp = now` and `ttl = now + 300` only if the stored `process_id` is
this process's, and on a failed condition clears the local flag and
returns false; `release` deletes the record only when the stored
`process_id` matches, swallows the failed condition otherwise, and always
leaves the local flag cleared. -/
theorem claim_C7_refresh_release (st : LockSt) (store : Option LeaseRec)
    (now : Int) :
    (st.lock_acquired = false → refresh st store now = (st, store, false)) ∧
    (∀ rec, st.lock_acquired = true → store = some rec →
      rec.process_id = st.process_id →
      refresh st store now = (st, some ⟨rec.process_id, now, now + 300⟩, true)) ∧
    (∀ rec, st.lock_acquired = true → store = some rec →
      rec.process_id ≠ st.process_id →
      refresh st store now = ({ st with lock_acquired := false }, store, false)) ∧
    (st.lock_acquired = true → store = none →
      refresh st store now = ({ st with lock_acquired := false }, store, false)) ∧
    (release st store).1.lock_acquired = false ∧
    (∀ rec, st.lock_acquired = true → store = some rec →
      rec.process_id = st.process_id → (release st store).2 = none) ∧
    (∀ rec, st.lock_acquired = true → store = some rec →
      rec.process_id ≠ st.process_id → (release st store).2 = store) ∧
    (st.lock_acquired = false → release st store = (st, store)) := by
  refine ⟨?_, ?_, ?_, ?_, ?_, ?_, ?_, ?_⟩
  · intro h; simp [refresh, h]
  · intro rec ha hs hp; subst hs; simp [refresh, ha, hp]
  · intro rec ha hs hp; subst hs; simp [refresh, ha, hp]
  · intro ha hs; subst hs; simp [refresh, ha]
  · rcases hb : st.lock_acquired with _ | _
    · simp [release, hb]
    · rcases store with _ | rec
      · simp [release, hb]
      · by_cases hp : rec.process_id = st.process_id <;> simp [release, hb, hp]
  · intro rec ha hs hp; subst hs; simp [release, ha, hp]
  · intro rec hs ha hp; subst ha
    rcases hb : st.lock_acquired with _ | _
    · simp [release, hb]
    · simp [release, hb, hp]
  · intro h; simp [release, h]

/-- Witness for C7: a held lease whose stored record is our own is
refreshed in place. -/
theorem claim_C7_refresh_release_witness :
    (⟨1, true⟩ : LockSt).lock_acquired = true ∧
    refresh ⟨1, true⟩ (some ⟨1, 0, 300⟩) 100 =
      (⟨1, true⟩, some ⟨1, 100, 400⟩, true) :=
  ⟨rfl,
   (claim_C7_refresh_release ⟨1, true⟩ (some ⟨1, 0, 300⟩) 100).2.1
     ⟨1, 0, 300⟩ rfl rfl rfl⟩

/-- C1 fails on this code: `update_job_status` issues an unconditional
`update_item` — no `ConditionExpression` names the prior status — so when
two workers race on the same pending row BOTH claim writes succeed: here
worker 100 claims the sample pending job, then worker 200's claim write on
the very same row also returns true and overwrites the lock, leaving the
row `in_progress` under worker 200.  The claim's `at most one claim write
succeeds and the loser skips the job` is violated. -/
theorem claim_C1_unconditional_claim_race :
    is_job_eligible job0 dt1 = true ∧
    (try_claim_job w100 tblC1 job0 dt1).2 = true ∧
    (try_claim_job w200 (try_claim_job w100 tblC1 job0 dt1).1 job0 dt1).2 = true ∧
    ((findItem (try_claim_job w200 (try_claim_job w100 tblC1 job0 dt1).1 job0 dt1).1
        (make_job_sk job0.scheduled_for job0.job_id)).map
      (fun it => (it.status, it.locked_by))) =
      some (some Status.in_progress, some 200) := by
  decide

/-- Case analysis of one `try_reserve` call. -/
theorem try_reserve_cases (s : DedupSt) (l d : Nat) (jpk jsk : List Char)
    (f : Bool) :
    (f = true ∧ try_reserve s l d jpk jsk f = Except.error ()) ∨
    (f = false ∧ hasRes s (l, d) = true ∧
      try_reserve s l d jpk jsk f = Except.ok (s, false)) ∨
    (f = false ∧ hasRes s (l, d) = false ∧
      try_reserve s l d jpk jsk f =
        Except.ok ({ s with res := s.res ++ [((l, d), ⟨jpk, jsk⟩)] }, true)) := by
  cases f with
  | true => exact Or.inl ⟨rfl, by simp [try_reserve]⟩
  | false =>
    cases h : hasRes s (l, d) with
    | true => exact Or.inr (Or.inl ⟨rfl, rfl, by simp [try_reserve, h]⟩)
    | false => exact Or.inr (Or.inr ⟨rfl, rfl, by simp [try_reserve, h]⟩)

/-- Presence of a reservation key after appending one item. -/
theorem hasRes_append (s : DedupSt) (k k' : ResKey) (it : ResItem) :
    hasRes { s with res := s.res ++ [(k', it)] } k =
      (hasRes s k || decide (k' = k)) := by
  simp [hasRes, List.any_append]

/-- One executed invocation: an existing reservation is never won again,
and a won invocation appends exactly its own key. -/
theorem execOp_behavior (s : DedupSt) (op : DOp) :
    (hasRes s (opKey op) = true →
      (execOp s op).1.res = s.res ∧ (execOp s op).2 ≠ Except.ok true) ∧
    ((execOp s op).2 = Except.ok true →
      ∃ it, (execOp s op).1.res = s.res ++ [(opKey op, it)]) := by
  cases op with
  | tr l d jpk jsk f =>
    rcases try_reserve_cases s l d jpk jsk f with
      ⟨hf, he⟩ | ⟨hf, hk, he⟩ | ⟨hf, hk, he⟩
    · refine ⟨fun _ => ⟨by simp [execOp, he], by simp [execOp, he]⟩, fun h => ?_⟩
      simp [execOp, he] at h
    · refine ⟨fun _ => ⟨by simp [execOp, he], by simp [execOp, he]⟩, fun h => ?_⟩
      simp [execOp, he] at h
    · refine ⟨fun hk' => absurd hk' (by simp [opKey, hk]), fun _ => ?_⟩
      exact ⟨⟨jpk, jsk⟩, by simp [execOp, opKey, he]⟩
  | sin job l d f =>
    rcases try_reserve_cases s l d jobPkLit
        (make_job_sk job.scheduled_for job.job_id) f with
      ⟨hf, he⟩ | ⟨hf, hk, he⟩ | ⟨hf, hk, he⟩
    · refine ⟨fun _ => ⟨by simp [execOp, schedule_if_needed, he],
        by simp [execOp, schedule_if_needed, he]⟩, fun h => ?_⟩
      simp [execOp, schedule_if_needed, he] at h
    · refine ⟨fun _ => ⟨by simp [execOp, schedule_if_needed, he],
        by simp [execOp, schedule_if_needed, he]⟩, fun h => ?_⟩
      simp [execOp, schedule_if_needed, he] at h
    · refine ⟨fun hk' => absurd hk' (by simp [opKey, hk]), fun _ => ?_⟩
      refine ⟨⟨jobPkLit, make_job_sk job.scheduled_for job.job_id⟩, ?_⟩
      simp [execOp, schedule_if_needed, he, opKey]

/-- Reservation keys only accumulate as invocations execute. -/
theorem execOp_mono (s : DedupSt) (op : DOp) (k : ResKey)
    (h : hasRes s k = true) : hasRes (execOp s op).1 k = true := by
  rcases he : (execOp s op).2 with e | b
  · cases op with
    | tr l d jpk jsk f =>
      rcases try_reserve_cases s l d jpk jsk f with ⟨_, hr⟩ | ⟨_, _, hr⟩ | ⟨_, _, hr⟩ <;>
        simp_all [execOp, hasRes_append]
    | sin job l d f =>
      rcases try_reserve_cases s l d jobPkLit
          (make_job_sk job.scheduled_for job.job_id) f with
        ⟨_, hr⟩ | ⟨_, _, hr⟩ | ⟨_, _, hr⟩ <;>
        simp_all [execOp, schedule_if_needed, hasRes_append, hasRes]
  · cases b with
    | false =>
      cases op with
      | tr l d jpk jsk f =>
        rcases try_reserve_cases s l d jpk jsk f with ⟨_, hr⟩ | ⟨_, _, hr⟩ | ⟨_, _, hr⟩ <;>
          simp_all [execOp, hasRes_append]
      | sin job l d f =>
        rcases try_reserve_cases s l d jobPkLit
            (make_job_sk job.scheduled_for job.job_id) f with
          ⟨_, hr⟩ | ⟨_, _, hr⟩ | ⟨_, _, hr⟩ <;>
          simp_all [execOp, schedule_if_needed, hasRes_append, hasRes]
    | true =>
      obtain ⟨it, hres⟩ := (execOp_behavior s op).2 he
      have : hasRes (execOp s op).1 k =
          (hasRes { s with res := s.res } k || decide (opKey op = k)) := by
        simp [hasRes, hres, List.any_append]
      simp_all [hasRes]

/-- After a reservation key is taken, no later invocation on it wins. -/
theorem succCount_zero_of_hasRes (k : ResKey) :
    ∀ (ops : List DOp) (s : DedupSt), hasRes s k = true →
      succCount k (runOps s ops) = 0 := by
  intro ops
  induction ops with
  | nil => intro s _; simp [runOps, succCount]
  | cons op ops ih =>
    intro s hs
    simp only [runOps, succCount, List.countP_cons]
    rcases hop : decide (opKey op = k) with _ | _
    · have h0 := ih (execOp s op).1 (execOp_mono s op k hs)
      simp only [succCount] at h0
      simp [h0, hop]
    · have hkey : opKey op = k := of_decide_eq_true hop
      have hne := ((execOp_behavior s op).1 (hkey ▸ hs)).2
      have h0 := ih (execOp s op).1 (execOp_mono s op k hs)
      simp only [succCount] at h0
      rcases hres : (execOp s op).2 with e | b
      · simp [h0, hres]
      · cases b with
        | false => simp [h0, hres]
        | true => exact absurd hres hne

/-- Any history of invocations wins a given reservation key at most
once. -/
theorem succCount_le_one (k : ResKey) :
    ∀ (ops : List DOp) (s : DedupSt), succCount k (runOps s ops) ≤ 1 := by
  intro ops
  induction ops with
  | nil => intro s; simp [runOps, succCount]
  | cons op ops ih =>
    intro s
    simp only [runOps, succCount, List.countP_cons]
    rcases hres : (execOp s op).2 with e | b
    · have := ih (execOp s op).1
      simp only [succCount] at this
      simp [this, hres]
    · cases b with
      | false =>
        have := ih (execOp s op).1
        simp only [succCount] at this
        simp [this, hres]
      | true =>
        obtain ⟨it, hr⟩ := (execOp_behavior s op).2 hres
        have hk : hasRes (execOp s op).1 (opKey op) = true := by
          simp [hasRes, hr, List.any_append]
        rcases hop : decide (opKey op = k) with _ | _
        · have := ih (execOp s op).1
          simp only [succCount] at this
          simp [this, hop]
        · have hkey : opKey op = k := of_decide_eq_true hop
          have h0 := succCount_zero_of_hasRes k ops (execOp s op).1 (hkey ▸ hk)
          simp only [succCount] at h0
          simp [h0, hres, hop]

/-- C3: `try_reserve` is the `attribute_not_exists(PK)` conditional put —
across any lifetime of invocations it returns true at most once per
`(logical_id, bucket)`; it returns false exactly on the failed condition
and re-raises any other store error; and `schedule_if_needed` reserves
before `put_job`, so a lost reservation returns false with the job
partition untouched while a won one writes both rows. -/
theorem claim_C3_dedup_reserve_at_most_once :
    (∀ (ops : List DOp) (k : ResKey), succCount k (runOps ⟨[], []⟩ ops) ≤ 1) ∧
    (∀ (s : DedupSt) (l d : Nat) (jpk jsk : List Char),
      try_reserve s l d jpk jsk true = Except.error ()) ∧
    (∀ (s : DedupSt) (l d : Nat) (jpk jsk : List Char),
      hasRes s (l, d) = true →
        try_reserve s l d jpk jsk false = Except.ok (s, false)) ∧
    (∀ (s : DedupSt) (l d : Nat) (jpk jsk : List Char),
      hasRes s (l, d) = false →
        try_reserve s l d jpk jsk false =
          Except.ok ({ s with res := s.res ++ [((l, d), ⟨jpk, jsk⟩)] }, true)) ∧
    (∀ (s : DedupSt) (job : ScheduledJob) (l d : Nat),
      hasRes s (l, d) = true →
        schedule_if_needed s job l d false = Except.ok (s, false)) ∧
    (∀ (s : DedupSt) (job : ScheduledJob) (l d : Nat),
      hasRes s (l, d) = false →
        schedule_if_needed s job l d false =
          Except.ok ({ s with
            res := s.res ++ [((l, d),
              ⟨jobPkLit, make_job_sk job.scheduled_for job.job_id⟩)],
            jobs := put_job s.jobs job }, true)) := by
  refine ⟨fun ops k => succCount_le_one k ops _, ?_, ?_, ?_, ?_, ?_⟩
  · intro s l d jpk jsk; simp [try_reserve]
  · intro s l d jpk jsk h; simp [try_reserve, h]
  · intro s l d jpk jsk h; simp [try_reserve, h]
  · intro s job l d h; simp [schedule_if_needed, try_reserve, h]
  · intro s job l d h; simp [schedule_if_needed, try_reserve, h]

/-- Witness for C3: a second `schedule_if_needed` on an already-reserved
`(logical_id, bucket)` returns false and leaves the state unchanged. -/
theorem claim_C3_dedup_reserve_at_most_once_witness :
    hasRes ⟨[((3, 4), ⟨jobPkLit, []⟩)], []⟩ (3, 4) = true ∧
    schedule_if_needed ⟨[((3, 4), ⟨jobPkLit, []⟩)], []⟩ job0 3 4 false =
      Except.ok (⟨[((3, 4), ⟨jobPkLit, []⟩)], []⟩, false) :=
  ⟨by decide,
   claim_C3_dedup_reserve_at_most_once.2.2.2.2.1
     ⟨[((3, 4), ⟨jobPkLit, []⟩)], []⟩ job0 3 4 (by decide)⟩

/-- Fixed-width hexadecimal renderings have their width as length. -/
theorem hexPad_length : ∀ (w n : Nat), (hexPad w n).length = w
  | 0, _ => rfl
  | w + 1, n => by simp [hexPad, hexPad_length w]

/-- Canonical UUID strings are 36 characters long. -/
theorem uuidStr_length (v : Nat) : (uuidStr v).length = 36 := by
  simp [uuidStr, hexPad_length]

/-- The daily-summary reservation pointer is never the storage key of any
job scheduled at that instant: it is 37 characters short of one. -/
theorem daily_res_sk_ne_make_job_sk (t : DT) (v : Nat) :
    daily_res_sk t ≠ make_job_sk t v := by
  intro h
  have hl := congrArg List.length h
  simp [daily_res_sk, make_job_sk, uuidStr_length] at hl

/-- C5 fails on this code: running the daily-summary enqueue task from an
empty table wins its reservation, but the reservation row's `job_sk` is
`scheduled#<iso>` while the job row it creates is stored under
`scheduled#<iso>#<uuid>` — the pointer does not equal the job's storage
key (the job's UUID is generated only after the reservation). -/
theorem claim_C5_counterexample :
    (schedule_daily_summary_user ⟨[], []⟩ 3 4 9 dt0 uu0 dt0).2 = true ∧
    ((schedule_daily_summary_user ⟨[], []⟩ 3 4 9 dt0 uu0 dt0).1.res.map
      (fun r => r.2.job_sk)) = [daily_res_sk dt0] ∧
    ((schedule_daily_summary_user ⟨[], []⟩ 3 4 9 dt0 uu0 dt0).1.jobs.map
      (fun r => r.1)) = [make_job_sk dt0 uu0] ∧
    daily_res_sk dt0 ≠ make_job_sk dt0 uu0 := by
  decide

/-- C5 as amended: `schedule_if_needed` and the work-sampling enqueue
task write reservations whose `job_pk`/`job_sk` are exactly the storage
key of the job row they then create; the daily-summary enqueue task
instead writes `job_sk = "scheduled#" + ISO8601(next_7am)` with no job-id
segment, which is not the storage key of any job scheduled at that
instant, in particular not of the one it creates. -/
theorem claim_C5_reservation_pointer (s : DedupSt) (job : ScheduledJob)
    (l d p : Nat) (t : DT) (u : Nat) (now : DT)
    (h : hasRes s (l, d) = false) :
    (schedule_if_needed s job l d false =
      Except.ok ({ s with
        res := s.res ++ [((l, d),
          ⟨jobPkLit, make_job_sk job.scheduled_for job.job_id⟩)],
        jobs := put_job s.jobs job }, true)) ∧
    (schedule_work_sampling_slot s l d p t u now =
      ({ s with
        res := s.res ++ [((l, d), ⟨jobPkLit, make_job_sk t u⟩)],
        jobs := put_job s.jobs
          ⟨u, work_sampling_tag, p, t, Status.pending,
           none, none, 0, none, now, none⟩ }, true)) ∧
    (schedule_daily_summary_user s l d p t u now =
      ({ s with
        res := s.res ++ [((l, d), ⟨jobPkLit, daily_res_sk t⟩)],
        jobs := put_job s.jobs
          ⟨u, daily_summary_tag, p, t, Status.pending,
           none, none, 0, none, now, none⟩ }, true)) ∧
    (∀ v : Nat, daily_res_sk t ≠ make_job_sk t v) := by
  refine ⟨?_, ?_, ?_, daily_res_sk_ne_make_job_sk t⟩
  · simp [schedule_if_needed, try_reserve, h]
  · simp [schedule_work_sampling_slot, try_reserve, h]
  · simp [schedule_daily_summary_user, try_reserve, h]

/-- Witness for C5 (amended): the work-sampling slot enqueue from the
empty state writes the reservation pointing at the created job's exact
storage key. -/
theorem claim_C5_reservation_pointer_witness :
    hasRes ⟨[], []⟩ (3, 4) = false ∧
    schedule_work_sampling_slot ⟨[], []⟩ 3 4 9 dt0 uu0 dt1 =
      ({ res := [((3, 4), ⟨jobPkLit, make_job_sk dt0 uu0⟩)],
         jobs := put_job []
           ⟨uu0, work_sampling_tag, 9, dt0, Status.pending,
            none, none, 0, none, dt1, none⟩ }, true) :=
  ⟨by decide,
   (claim_C5_reservation_pointer ⟨[], []⟩ job0 3 4 9 dt0 uu0 dt1 (by decide)).2.1⟩

/-- Reading back the key just written by a `put_item`. -/
theorem findItem_putItem_self (tbl : JobTbl) (sk : Sk) (it : JobItem) :
    findItem (putItem tbl sk it) sk = some it := by
  unfold findItem putItem
  induction tbl with
  | nil =>
    rw [List.filter_nil, List.nil_append,
      List.find?_cons_of_pos _ (by simp)]
    rfl
  | cons r rs ih =>
    rw [List.filter_cons]
    by_cases h : r.1 = sk
    · rw [if_neg (by simp [h])]
      exact ih
    · rw [if_pos (by simp [h]), List.cons_append,
        List.find?_cons_of_neg _ (by simp [h])]
      exact ih

/-- A `put_item` leaves every other key unchanged. -/
theorem findItem_putItem_ne (tbl : JobTbl) (sk sk' : Sk) (it : JobItem)
    (h : sk' ≠ sk) :
    findItem (putItem tbl sk it) sk' = findItem tbl sk' := by
  unfold findItem putItem
  induction tbl with
  | nil =>
    rw [List.filter_nil, List.nil_append,
      List.find?_cons_of_neg _ (by simp [Ne.symm h])]
  | cons r rs ih =>
    rw [List.filter_cons]
    by_cases hr : r.1 = sk
    · rw [if_neg (by simp [hr]),
        List.find?_cons_of_neg _ (by simp [hr, Ne.symm h])]
      exact ih
    · by_cases hr' : r.1 = sk'
      · rw [if_pos (by simp [hr]), List.cons_append,
          List.find?_cons_of_pos _ (by simp [hr']),
          List.find?_cons_of_pos _ (by simp [hr'])]
      · rw [if_pos (by simp [hr]), List.cons_append,
          List.find?_cons_of_neg _ (by simp [hr']),
          List.find?_cons_of_neg _ (by simp [hr'])]
        exact ih

/-- The row `update_job_status` rewrites reads back as the `SET`-merge of
whatever was stored (or of the empty item when the key was absent). -/
theorem findItem_update_self (tbl : JobTbl) (jid : Nat) (t : DT)
    (st : Status) (u : JobUpd) :
    ∃ it0 : JobItem,
      findItem (update_job_status tbl jid t st u) (make_job_sk t jid) =
        some (applyUpd it0 st u) := by
  simp only [update_job_status]
  cases hfind : findItem tbl (make_job_sk t jid) with
  | none =>
    exact ⟨emptyItem, findItem_putItem_self _ _ _⟩
  | some it =>
    exact ⟨it, findItem_putItem_self _ _ _⟩

/-- `update_job_status` touches no other key. -/
theorem findItem_update_ne (tbl : JobTbl) (jid : Nat) (t : DT)
    (st : Status) (u : JobUpd) (sk : Sk) (h : sk ≠ make_job_sk t jid) :
    findItem (update_job_status tbl jid t st u) sk = findItem tbl sk := by
  simp only [update_job_status]
  cases hfind : findItem tbl (make_job_sk t jid) with
  | none => exact findItem_putItem_ne _ _ _ _ h
  | some it => exact findItem_putItem_ne _ _ _ _ h

/-- C4: when a claimed job's handler raises, the worker computes
`attempts + 1`; while retries remain it rewrites the current row to
`failed` with the bumped count, the error, and cleared lock fields, and
inserts a fresh `pending` row for the same `job_id` due at
`now + base_delay · 2^(attempts'−1)` seconds with `created_at` preserved;
once `max_attempts ≤ attempts + 1` it rewrites the current row to
`dead_letter` with the bumped count — so the dead-letter write always
carries `attempts ≥ max_attempts` — and touches no other key, creating no
new pending row. -/
theorem claim_C4_failure_retry_then_dead_letter (w : WorkerCfg)
    (tbl : JobTbl) (job : ScheduledJob) (msg : Nat) (now : DT) :
    (job.attempts + 1 < w.policy.max_attempts →
      (make_job_sk
          (addSeconds now (w.policy.base_delay_seconds * 2 ^ (job.attempts + 1 - 1)))
          job.job_id ≠ make_job_sk job.scheduled_for job.job_id →
        ((findItem (handle_job_failure w tbl job msg now)
            (make_job_sk job.scheduled_for job.job_id)).map
          (fun it =>
            (it.status, it.attempts, it.last_error, it.locked_by,
             it.lock_expires_at))) =
          some (some Status.failed, some (job.attempts + 1), some msg,
            none, none)) ∧
      findItem (handle_job_failure w tbl job msg now)
          (make_job_sk
            (addSeconds now (w.policy.base_delay_seconds * 2 ^ (job.attempts + 1 - 1)))
            job.job_id) =
        some ⟨some job.job_id, some job.job_type, some job.payload,
          some (addSeconds now (w.policy.base_delay_seconds * 2 ^ (job.attempts + 1 - 1))),
          some Status.pending, none, none, some (job.attempts + 1), some msg,
          some job.created_at, none⟩) ∧
    (w.policy.max_attempts ≤ job.attempts + 1 →
      ((findItem (handle_job_failure w tbl job msg now)
          (make_job_sk job.scheduled_for job.job_id)).map
        (fun it =>
          (it.status, it.attempts, it.last_error, it.locked_by,
           it.lock_expires_at))) =
        some (some Status.dead_letter, some (job.attempts + 1), some msg,
          none, none) ∧
      (∀ sk : Sk, sk ≠ make_job_sk job.scheduled_for job.job_id →
        findItem (handle_job_failure w tbl job msg now) sk =
          findItem tbl sk)) := by
  constructor
  · intro hlt
    have hsr : should_retry w.policy (job.attempts + 1) = true := by
      simp only [should_retry, decide_eq_true_eq]; omega
    constructor
    · intro hne
      unfold handle_job_failure
      dsimp only
      split
      · simp only [reschedule_job, calculate_next_run, calculate_delay, put_job]
        rw [findItem_putItem_ne _ _ _ _ (Ne.symm hne)]
        obtain ⟨it0, hit⟩ := findItem_update_self tbl job.job_id
          job.scheduled_for Status.failed
          { attempts := some (job.attempts + 1), last_error := some msg,
            locked_by := some none, lock_expires_at := some none }
        rw [hit]
        simp [applyUpd]
      · next hcond => exact absurd hsr hcond
    · unfold handle_job_failure
      dsimp only
      split
      · simp only [reschedule_job, calculate_next_run, calculate_delay, put_job]
        exact findItem_putItem_self _ _ _
      · next hcond => exact absurd hsr hcond
  · intro hge
    have hsr : should_retry w.policy (job.attempts + 1) = false := by
      simp only [should_retry, decide_eq_false_iff_not]; omega
    constructor
    · unfold handle_job_failure
      dsimp only
      split
      · next hcond => rw [hsr] at hcond; exact absurd hcond (by simp)
      · obtain ⟨it0, hit⟩ := findItem_update_self tbl job.job_id
          job.scheduled_for Status.dead_letter
          { attempts := some (job.attempts + 1), last_error := some msg,
            locked_by := some none, lock_expires_at := some none }
        rw [hit]
        simp [applyUpd]
    · intro sk hsk
      unfold handle_job_failure
      dsimp only
      split
      · next hcond => rw [hsr] at hcond; exact absurd hcond (by simp)
      · exact findItem_update_ne _ _ _ _ _ _ hsk

/-- Witness for C4: the sample job's first failure is retried — the fresh
pending row exists at the backed-off due time with attempts 1 and the
original `created_at`. -/
theorem claim_C4_failure_retry_then_dead_letter_witness :
    job0.attempts + 1 < w100.policy.max_attempts ∧
    findItem (handle_job_failure w100 tblC1 job0 5 dt1)
        (make_job_sk
          (addSeconds dt1 (w100.policy.base_delay_seconds * 2 ^ (job0.attempts + 1 - 1)))
          job0.job_id) =
      some ⟨some job0.job_id, some job0.job_type, some job0.payload,
        some (addSeconds dt1 (w100.policy.base_delay_seconds * 2 ^ (job0.attempts + 1 - 1))),
        some Status.pending, none, none, some (job0.attempts + 1), some 5,
        some job0.created_at, none⟩ :=
  ⟨by decide,
   ((claim_C4_failure_retry_then_dead_letter w100 tblC1 job0 5 dt1).1
     (by decide)).2⟩

/-- Reflexivity of the sort-key order. -/
theorem lexLe_refl (a : List Char) : lexLe a a = true := by
  induction a with
  | nil => rfl
  | cons x xs ih => simp [lexLe, ih]

/-- Totality of the sort-key order. -/
theorem lexLe_total (a b : List Char) : lexLe a b = true ∨ lexLe b a = true := by
  induction a generalizing b with
  | nil => exact Or.inl rfl
  | cons x xs ih =>
    cases b with
    | nil => exact Or.inr rfl
    | cons y ys =>
      by_cases hxy : x = y
      · subst hxy
        rcases ih ys with h | h
        · exact Or.inl (by simp [lexLe, h])
        · exact Or.inr (by simp [lexLe, h])
      · rcases lt_trichotomy x y with h | h | h
        · exact Or.inl (by simp [lexLe, hxy, h])
        · exact absurd h hxy
        · exact Or.inr (by simp [lexLe, Ne.symm hxy, h])

/-- Transitivity of the sort-key order. -/
theorem lexLe_trans {a b c : List Char} (hab : lexLe a b = true)
    (hbc : lexLe b c = true) : lexLe a c = true := by
  induction a generalizing b c with
  | nil => rfl
  | cons x xs ih =>
    cases b with
    | nil => simp [lexLe] at hab
    | cons y ys =>
      cases c with
      | nil => simp [lexLe] at hbc
      | cons z zs =>
        by_cases hxy : x = y
        · subst hxy
          by_cases hyz : x = z
          · subst hyz
            simp only [lexLe, if_pos rfl] at hab hbc ⊢
            exact ih hab hbc
          · have hlt : x < z := by simpa [lexLe, hyz] using hbc
            simp [lexLe, hyz, hlt]
        · have hxylt : x < y := by simpa [lexLe, hxy] using hab
          by_cases hyz : y = z
          · subst hyz
            simp [lexLe, hxy, hxylt]
          · have hyzlt : y < z := by simpa [lexLe, hyz] using hbc
            have hxz : x < z := lt_trans hxylt hyzlt
            simp [lexLe, ne_of_lt hxz, hxz]

/-- Inserting into the key-ascending list is a permutation. -/
theorem insertBySk_perm (r : Sk × JobItem) (l : JobTbl) :
    List.Perm (insertBySk r l) (r :: l) := by
  induction l with
  | nil => exact List.Perm.refl _
  | cons x xs ih =>
    simp only [insertBySk]
    split
    · exact List.Perm.refl _
    · exact (ih.cons x).trans (List.Perm.swap _ _ _)

/-- The key-ascending relisting is a permutation of the partition. -/
theorem sortBySk_perm (tbl : JobTbl) : List.Perm (sortBySk tbl) tbl := by
  induction tbl with
  | nil => exact List.Perm.refl _
  | cons x xs ih => exact (insertBySk_perm x (sortBySk xs)).trans (ih.cons x)

/-- Insertion preserves key-ascending order. -/
theorem insertBySk_pairwise (r : Sk × JobItem) (l : JobTbl)
    (h : l.Pairwise (fun a b => lexLe a.1 b.1 = true)) :
    (insertBySk r l).Pairwise (fun a b => lexLe a.1 b.1 = true) := by
  induction l with
  | nil => simp [insertBySk]
  | cons x xs ih =>
    rcases List.pairwise_cons.mp h with ⟨hx, hxs⟩
    simp only [insertBySk]
    split
    · next hle =>
      refine List.pairwise_cons.mpr ⟨?_, h⟩
      intro y hy
      rcases List.mem_cons.mp hy with rfl | hy'
      · exact hle
      · exact lexLe_trans hle (hx y hy')
    · next hnle =>
      have hxr : lexLe x.1 r.1 = true := by
        rcases lexLe_total r.1 x.1 with h' | h'
        · exact absurd h' hnle
        · exact h'
      refine List.pairwise_cons.mpr ⟨?_, ih hxs⟩
      intro y hy
      have hy2 : y = r ∨ y ∈ xs := by
        simpa using (insertBySk_perm r xs).mem_iff.mp hy
      rcases hy2 with rfl | hy'
      · exact hxr
      · exact hx y hy'

/-- The relisting a query scans is key-ascending. -/
theorem sortBySk_pairwise (tbl : JobTbl) :
    (sortBySk tbl).Pairwise (fun a b => lexLe a.1 b.1 = true) := by
  induction tbl with
  | nil => simp [sortBySk]
  | cons x xs ih => exact insertBySk_pairwise x (sortBySk xs) ih

/-- A shared prefix cancels on both sides of the sort-key order. -/
theorem lexLe_append_left_congr (p a b : List Char) :
    lexLe (p ++ a) (p ++ b) = lexLe a b := by
  induction p with
  | nil => rfl
  | cons x xs ih => simp [lexLe, ih]

/-- Every lowercase hexadecimal digit character sorts before `z`. -/
theorem hexChar_lt_z : ∀ d : Nat, d < 16 → hexChar d < 'z' := by decide

/-- A list headed by a character before `z` sorts before `z` alone. -/
theorem lexLe_cons_z {c : Char} (rest : List Char) (h : c < 'z') :
    lexLe (c :: rest) ['z'] = true := by
  simp [lexLe, ne_of_lt h, h]

/-- A canonical UUID rendering sorts before the single-character sentinel
`z`. -/
theorem lexLe_uuidStr_z (id : Nat) (h : WFuuid id) :
    lexLe (uuidStr id) ['z'] = true := by
  have h8 : id / 16 ^ 24 < 16 ^ 8 := by
    have : id < 16 ^ 8 * 16 ^ 24 := by
      calc id < 2 ^ 128 := h
        _ = 16 ^ 8 * 16 ^ 24 := by norm_num
    exact Nat.div_lt_of_lt_mul this
  have hd : id / 16 ^ 24 / 16 ^ 7 < 16 := by
    have : id / 16 ^ 24 < 16 * 16 ^ 7 := by
      calc id / 16 ^ 24 < 16 ^ 8 := h8
        _ = 16 * 16 ^ 7 := by norm_num
    exact Nat.div_lt_of_lt_mul this
  have hres : uuidStr id = hexChar (id / 16 ^ 24 / 16 ^ 7) ::
      (hexPad 7 (id / 16 ^ 24 % 16 ^ 7) ++
       '-' :: hexPad 4 (id / 16 ^ 20 % 16 ^ 4) ++
       '-' :: hexPad 4 (id / 16 ^ 16 % 16 ^ 4) ++
       '-' :: hexPad 4 (id / 16 ^ 12 % 16 ^ 4) ++
       '-' :: hexPad 12 (id % 16 ^ 12)) := rfl
  rw [hres]
  exact lexLe_cons_z _ (hexChar_lt_z _ hd)

/-- A job due exactly at `now` satisfies the due-jobs key condition. -/
theorem make_job_sk_le_dueQuerySk (now : DT) (id : Nat) (h : WFuuid id) :
    lexLe (make_job_sk now id) (dueQuerySk now) = true := by
  have hm : make_job_sk now id =
      (scheduledWord ++ '#' :: isoformat now ++ ['#']) ++ uuidStr id := by
    simp [make_job_sk, List.append_assoc]
  have hq : dueQuerySk now =
      (scheduledWord ++ '#' :: isoformat now ++ ['#']) ++ ['z'] := by
    simp [dueQuerySk, List.append_assoc]
  rw [hm, hq, lexLe_append_left_congr]
  exact lexLe_uuidStr_z id h

/-- C6: `get_due_jobs` returns only rows with `status = pending` whose
sort key is at most `scheduled#<ISO8601(now)>#z` (the sentinel `z` sorting
after every hexadecimal job-id encoding), in ascending sort-key order, and
never more than `limit` rows; a pending row whose key is
`make_job_sk now id` — a job with `scheduled_for` exactly `now` — IS
within the key bound, and is returned whenever the key-condition page
is not truncated by `limit`. -/
theorem claim_C6_get_due_jobs (tbl : JobTbl) (now : DT) (limit : Nat) :
    (∀ r ∈ get_due_jobs tbl now limit,
      r.2.status = some Status.pending ∧ lexLe r.1 (dueQuerySk now) = true) ∧
    (get_due_jobs tbl now limit).Pairwise (fun a b => lexLe a.1 b.1 = true) ∧
    (get_due_jobs tbl now limit).length ≤ limit ∧
    (∀ (r : Sk × JobItem) (id : Nat), r ∈ tbl →
      r.2.status = some Status.pending → r.1 = make_job_sk now id →
      WFuuid id →
      (tbl.filter (fun q => lexLe q.1 (dueQuerySk now))).length ≤ limit →
      r ∈ get_due_jobs tbl now limit) := by
  refine ⟨?_, ?_, ?_, ?_⟩
  · intro r hr
    unfold get_due_jobs at hr
    have h2 := List.mem_filter.mp hr
    have h3 : r ∈ (sortBySk tbl).filter
        (fun q => lexLe q.1 (dueQuerySk now)) :=
      List.mem_of_mem_take h2.1
    have h4 := List.mem_filter.mp h3
    exact ⟨by simpa using h2.2, by simpa using h4.2⟩
  · unfold get_due_jobs
    exact List.Pairwise.sublist
      ((List.filter_sublist _).trans
        ((List.take_sublist _ _).trans (List.filter_sublist _)))
      (sortBySk_pairwise tbl)
  · unfold get_due_jobs
    calc (((((sortBySk tbl).filter _).take limit)).filter _).length
        ≤ ((((sortBySk tbl).filter _).take limit)).length :=
          List.length_filter_le _ _
      _ ≤ limit := List.length_take_le _ _
  · intro r id hr hst hsk hid hlen
    unfold get_due_jobs
    dsimp only
    have hperm : List.Perm
        ((sortBySk tbl).filter (fun q => lexLe q.1 (dueQuerySk now)))
        (tbl.filter (fun q => lexLe q.1 (dueQuerySk now))) :=
      (sortBySk_perm tbl).filter _
    have hlen' : ((sortBySk tbl).filter
        (fun q => lexLe q.1 (dueQuerySk now))).length ≤ limit := by
      rw [hperm.length_eq]; exact hlen
    have hmem : r ∈ (sortBySk tbl).filter
        (fun q => lexLe q.1 (dueQuerySk now)) := by
      refine List.mem_filter.mpr ⟨(sortBySk_perm tbl).mem_iff.mpr hr, ?_⟩
      simp only [hsk]
      simpa using make_job_sk_le_dueQuerySk now id hid
    rw [List.take_of_length_le hlen']
    exact List.mem_filter.mpr ⟨hmem, by simpa using hst⟩

/-- Witness for C6: a single pending job scheduled exactly at `now` is
returned. -/
theorem claim_C6_get_due_jobs_witness :
    sampleRow dt0 9 Status.pending ∈ [sampleRow dt0 9 Status.pending] ∧
    sampleRow dt0 9 Status.pending ∈
      get_due_jobs [sampleRow dt0 9 Status.pending] dt0 25 :=
  ⟨by decide,
   (claim_C6_get_due_jobs [sampleRow dt0 9 Status.pending] dt0 25).2.2.2
     (sampleRow dt0 9 Status.pending) 9 (by decide) (by decide) rfl
     (by decide) (by decide)⟩

/-- Folding key-deletions over a key list removes exactly the rows whose
key occurs in it. -/
theorem foldl_delete_keys (ks : List Sk) :
    ∀ tbl : JobTbl, ks.foldl deleteItem tbl =
      tbl.filter (fun r => decide (r.1 ∉ ks)) := by
  induction ks with
  | nil =>
    intro tbl
    simp only [List.foldl_nil]
    exact (List.filter_eq_self.mpr (by intro a _; simp)).symm
  | cons k ks ih =>
    intro tbl
    simp only [List.foldl_cons]
    rw [ih (deleteItem tbl k)]
    unfold deleteItem
    rw [List.filter_filter]
    apply List.filter_congr
    intro a _
    by_cases h1 : a.1 = k <;> by_cases h2 : a.1 ∈ ks <;> simp [h1, h2]

/-- Folding key-deletions over a victim list removes exactly the rows
whose key is a victim key. -/
theorem foldl_deleteItem_eq_filter (vs : JobTbl) (tbl : JobTbl) :
    vs.foldl (fun t v => deleteItem t v.1) tbl =
      tbl.filter (fun r => decide (r.1 ∉ vs.map (fun v => v.1))) := by
  have h := foldl_delete_keys (vs.map (fun v => v.1)) tbl
  rw [List.foldl_map] at h
  exact h

/-- Two rows of a unique-key table with the same key are the same row. -/
theorem nodup_key_inj (tbl : JobTbl)
    (hnd : (tbl.map (fun r => r.1)).Nodup) {a b : Sk × JobItem}
    (ha : a ∈ tbl) (hb : b ∈ tbl) (hk : a.1 = b.1) : a = b :=
  List.inj_on_of_nodup_map hnd ha hb hk

/-- Membership of a row's key among the sweep's victim keys coincides
with the row satisfying the sweep predicate, on a unique-key table. -/
theorem victim_key_iff (tbl : JobTbl) (cutoff : DT)
    (hnd : (tbl.map (fun r => r.1)).Nodup) (a : Sk × JobItem)
    (ha : a ∈ tbl) :
    (a.1 ∈ (((sortBySk tbl).filter (fun r =>
        lexLt r.1 (cleanupBound cutoff) && finishedStatus r.2.status)).map
      (fun v => v.1)) ↔
      (lexLt a.1 (cleanupBound cutoff) && finishedStatus a.2.status) = true) := by
  constructor
  · intro h
    obtain ⟨v, hv, hkey⟩ := List.mem_map.mp h
    have hv2 := List.mem_filter.mp hv
    have hvtbl : v ∈ tbl := (sortBySk_perm tbl).mem_iff.mp hv2.1
    have : v = a := nodup_key_inj tbl hnd hvtbl ha hkey
    subst this
    exact hv2.2
  · intro h
    refine List.mem_map.mpr ⟨a, ?_, rfl⟩
    exact List.mem_filter.mpr ⟨(sortBySk_perm tbl).mem_iff.mpr ha, h⟩

/-- C2: on a unique-key table the retention sweep deletes exactly the
rows whose sort key is below `scheduled#<ISO8601(cutoff)>#` and whose
status is one of completed/failed/dead_letter/cancelled, returns the
number of rows so deleted, deletes nothing else, and in particular never
deletes a `pending` or `in_progress` row, regardless of its age. -/
theorem claim_C2_cleanup_old_jobs (tbl : JobTbl) (cutoff : DT)
    (hnd : (tbl.map (fun r => r.1)).Nodup) :
    (cleanup_old_jobs tbl cutoff).1 =
      tbl.filter (fun r =>
        !(lexLt r.1 (cleanupBound cutoff) && finishedStatus r.2.status)) ∧
    (cleanup_old_jobs tbl cutoff).2 =
      (tbl.filter (fun r =>
        lexLt r.1 (cleanupBound cutoff) && finishedStatus r.2.status)).length ∧
    (∀ r ∈ tbl,
      (r.2.status = some Status.pending ∨
        r.2.status = some Status.in_progress) →
      r ∈ (cleanup_old_jobs tbl cutoff).1) ∧
    (∀ r ∈ (cleanup_old_jobs tbl cutoff).1, r ∈ tbl) := by
  have h1 : (cleanup_old_jobs tbl cutoff).1 =
      tbl.filter (fun r => decide (r.1 ∉
        (((sortBySk tbl).filter (fun q =>
          lexLt q.1 (cleanupBound cutoff) && finishedStatus q.2.status)).map
        (fun v => v.1)))) := by
    unfold cleanup_old_jobs
    exact foldl_deleteItem_eq_filter _ tbl
  have hfil : (cleanup_old_jobs tbl cutoff).1 =
      tbl.filter (fun r =>
        !(lexLt r.1 (cleanupBound cutoff) && finishedStatus r.2.status)) := by
    rw [h1]
    apply List.filter_congr
    intro a ha
    by_cases hp :
        (lexLt a.1 (cleanupBound cutoff) && finishedStatus a.2.status) = true
    · simp [hp, (victim_key_iff tbl cutoff hnd a ha).mpr hp]
    · have : a.1 ∉ (((sortBySk tbl).filter (fun q =>
          lexLt q.1 (cleanupBound cutoff) && finishedStatus q.2.status)).map
          (fun v => v.1)) := fun hc =>
        hp ((victim_key_iff tbl cutoff hnd a ha).mp hc)
      simp [this, hp]
  refine ⟨hfil, ?_, ?_, ?_⟩
  · show (((sortBySk tbl).filter (fun q =>
        lexLt q.1 (cleanupBound cutoff) && finishedStatus q.2.status)).length) = _
    exact ((sortBySk_perm tbl).filter _).length_eq
  · intro r hr hst
    rw [hfil]
    refine List.mem_filter.mpr ⟨hr, ?_⟩
    have : finishedStatus r.2.status = false := by
      rcases hst with h | h <;> rw [h] <;> decide
    simp [this]
  · intro r hr
    rw [hfil] at hr
    exact (List.mem_filter.mp hr).1

/-- Witness for C2: the spec's cleanup-bounds scenario — one job of every
status ten days old plus a three-day-old failed job, seven-day cutoff:
exactly the four old finished rows are deleted. -/
theorem claim_C2_cleanup_old_jobs_witness :
    (tblC2.map (fun r => r.1)).Nodup ∧
    (cleanup_old_jobs tblC2 dtCut).2 =
      (tblC2.filter (fun r =>
        lexLt r.1 (cleanupBound dtCut) && finishedStatus r.2.status)).length ∧
    (cleanup_old_jobs tblC2 dtCut).2 = 4 :=
  ⟨by decide,
   (claim_C2_cleanup_old_jobs tblC2 dtCut (by decide)).2.1,
   by decide⟩

/-- Decimal digit characters parse back to their value. -/
theorem parseDigit_digitChar : ∀ d : Nat, d < 10 →
    parseDigit (digitChar d) = some d := by decide

/-- Decimal digit characters are not the separator `#`. -/
theorem digitChar_ne_hash : ∀ d : Nat, d < 10 → digitChar d ≠ '#' := by decide

/-- Hexadecimal digit characters parse back to their value. -/
theorem parseHexDigit_hexChar : ∀ d : Nat, d < 16 →
    parseHexDigit (hexChar d) = some d := by decide

/-- Hexadecimal digit characters are not the separator `#`. -/
theorem hexChar_ne_hash : ∀ d : Nat, d < 16 → hexChar d ≠ '#' := by decide

/-- A parsed decimal digit came from exactly its rendering. -/
theorem parseDigit_inv {c : Char} {d : Nat} (h : parseDigit c = some d) :
    d ≤ 9 ∧ c = digitChar d := by
  unfold parseDigit at h
  split at h
  · next hc =>
    injection h with h'
    subst h'
    refine ⟨by omega, ?_⟩
    unfold digitChar
    have h48 : 48 + (c.toNat - 48) = c.toNat := by omega
    rw [h48, Char.ofNat_toNat]
  · exact absurd h (by simp)

/-- A parsed hexadecimal digit came from exactly its rendering. -/
theorem parseHexDigit_inv {c : Char} {d : Nat} (h : parseHexDigit c = some d) :
    d ≤ 15 ∧ c = hexChar d := by
  unfold parseHexDigit at h
  split at h
  · next hc =>
    injection h with h'
    subst h'
    refine ⟨by omega, ?_⟩
    unfold hexChar
    rw [if_pos (by omega)]
    have h48 : 48 + (c.toNat - 48) = c.toNat := by omega
    rw [h48, Char.ofNat_toNat]
  · next hc =>
    split at h
    · next hc2 =>
      injection h with h'
      subst h'
      refine ⟨by omega, ?_⟩
      unfold hexChar
      rw [if_neg (by omega)]
      have h87 : 87 + (c.toNat - 87) = c.toNat := by omega
      rw [h87, Char.ofNat_toNat]
    · exact absurd h (by simp)

/-- Two-digit renderings parse back. -/
theorem parse2_pad2 {n : Nat} (h : n ≤ 99) (r : List Char) :
    parse2 (pad2 n ++ r) = some (n, r) := by
  have h1 : n / 10 < 10 := by omega
  have h2 : n % 10 < 10 := by omega
  have e : pad2 n ++ r = digitChar (n / 10) :: digitChar (n % 10) :: r := rfl
  rw [e]
  simp only [parse2, parseDigit_digitChar _ h1, parseDigit_digitChar _ h2]
  have h3 : 10 * (n / 10) + n % 10 = n := by omega
  rw [h3]

/-- A successful two-digit parse came from exactly the rendering. -/
theorem parse2_inv {s : List Char} {n : Nat} {r : List Char}
    (h : parse2 s = some (n, r)) : n ≤ 99 ∧ s = pad2 n ++ r := by
  cases s with
  | nil => simp [parse2] at h
  | cons a s' =>
    cases s' with
    | nil => simp [parse2] at h
    | cons b r' =>
      simp only [parse2] at h
      cases ha : parseDigit a with
      | none => simp only [ha] at h; exact Option.noConfusion h
      | some x =>
        cases hb : parseDigit b with
        | none => simp only [ha, hb] at h; exact Option.noConfusion h
        | some y =>
          simp only [ha, hb] at h
          injection h with h'
          rw [Prod.mk.injEq] at h'
          obtain ⟨hn, hr⟩ := h'
          obtain ⟨hx9, hax⟩ := parseDigit_inv ha
          obtain ⟨hy9, hby⟩ := parseDigit_inv hb
          subst hn
          subst hr
          refine ⟨by omega, ?_⟩
          simp only [pad2]
          have hdiv : (10 * x + y) / 10 = x := by omega
          have hmod : (10 * x + y) % 10 = y := by omega
          rw [hdiv, hmod, ← hax, ← hby]
          rfl

/-- Four-digit renderings parse back. -/
theorem parse4_pad4 {n : Nat} (h : n ≤ 9999) (r : List Char) :
    parse4 (pad4 n ++ r) = some (n, r) := by
  have e : pad4 n ++ r = pad2 (n / 100) ++ (pad2 (n % 100) ++ r) := by
    simp [pad4, List.append_assoc]
  rw [e]
  simp only [parse4, parse2_pad2 (show n / 100 ≤ 99 by omega),
    parse2_pad2 (show n % 100 ≤ 99 by omega)]
  have h3 : 100 * (n / 100) + n % 100 = n := by omega
  rw [h3]

/-- A successful four-digit parse came from exactly the rendering. -/
theorem parse4_inv {s : List Char} {n : Nat} {r : List Char}
    (h : parse4 s = some (n, r)) : n ≤ 9999 ∧ s = pad4 n ++ r := by
  simp only [parse4] at h
  cases hp : parse2 s with
  | none => simp only [hp] at h; exact Option.noConfusion h
  | some p =>
    obtain ⟨a, r1⟩ := p
    simp only [hp] at h
    cases hq : parse2 r1 with
    | none => simp only [hq] at h; exact Option.noConfusion h
    | some q =>
      obtain ⟨b, r2⟩ := q
      simp only [hq] at h
      injection h with h'
      rw [Prod.mk.injEq] at h'
      obtain ⟨hn, hr⟩ := h'
      obtain ⟨ha99, hsa⟩ := parse2_inv hp
      obtain ⟨hb99, hsb⟩ := parse2_inv hq
      subst hn
      subst hr
      refine ⟨by omega, ?_⟩
      rw [hsa, hsb]
      simp only [pad4]
      have h1 : (100 * a + b) / 100 = a := by omega
      have h2 : (100 * a + b) % 100 = b := by omega
      rw [h1, h2, List.append_assoc]

/-- Six-digit renderings parse back. -/
theorem parse6_pad6 {n : Nat} (h : n ≤ 999999) (r : List Char) :
    parse6 (pad6 n ++ r) = some (n, r) := by
  have e : pad6 n ++ r = pad2 (n / 10000) ++ (pad4 (n % 10000) ++ r) := by
    simp [pad6, List.append_assoc]
  rw [e]
  simp only [parse6, parse2_pad2 (show n / 10000 ≤ 99 by omega),
    parse4_pad4 (show n % 10000 ≤ 9999 by omega)]
  have h3 : 10000 * (n / 10000) + n % 10000 = n := by omega
  rw [h3]

/-- A successful six-digit parse came from exactly the rendering. -/
theorem parse6_inv {s : List Char} {n : Nat} {r : List Char}
    (h : parse6 s = some (n, r)) : n ≤ 999999 ∧ s = pad6 n ++ r := by
  simp only [parse6] at h
  cases hp : parse2 s with
  | none => simp only [hp] at h; exact Option.noConfusion h
  | some p =>
    obtain ⟨a, r1⟩ := p
    simp only [hp] at h
    cases hq : parse4 r1 with
    | none => simp only [hq] at h; exact Option.noConfusion h
    | some q =>
      obtain ⟨b, r2⟩ := q
      simp only [hq] at h
      injection h with h'
      rw [Prod.mk.injEq] at h'
      obtain ⟨hn, hr⟩ := h'
      obtain ⟨ha99, hsa⟩ := parse2_inv hp
      obtain ⟨hb9999, hsb⟩ := parse4_inv hq
      subst hn
      subst hr
      refine ⟨by omega, ?_⟩
      rw [hsa, hsb]
      simp only [pad6]
      have h1 : (10000 * a + b) / 10000 = a := by omega
      have h2 : (10000 * a + b) % 10000 = b := by omega
      rw [h1, h2, List.append_assoc]

/-- Consuming the expected character. -/
theorem expectChar_cons (c : Char) (r : List Char) :
    expectChar c (c :: r) = some r := by
  simp [expectChar]

/-- A successful expected-character consumption exposes the head. -/
theorem expectChar_inv {c : Char} {s r : List Char}
    (h : expectChar c s = some r) : s = c :: r := by
  cases s with
  | nil => simp [expectChar] at h
  | cons x xs =>
    simp only [expectChar] at h
    split at h
    · next hx =>
      injection h with h'
      subst h'
      rw [hx]
    · exact absurd h (by simp)

/-- Every month length is at most 31. -/
theorem daysInMonth_le (y m : Nat) : daysInMonth y m ≤ 31 := by
  unfold daysInMonth
  split
  · split <;> omega
  · split <;> omega

/-- With no fractional digits the parser yields zero microseconds. -/
theorem parseFrac_utcSuffix : parseFrac utcSuffix = some (0, utcSuffix) := by
  decide

/-- A nonzero six-digit fraction parses back. -/
theorem parseFrac_pad6 {u : Nat} (h1 : u ≤ 999999) (h2 : u ≠ 0)
    (r : List Char) :
    parseFrac ('.' :: (pad6 u ++ r)) = some (u, r) := by
  simp [parseFrac, parse6_pad6 h1, h2]

/-- A successful fraction parse came from the canonical rendering. -/
theorem parseFrac_inv {s : List Char} {u : Nat} {r : List Char}
    (h : parseFrac s = some (u, r)) :
    (u = 0 ∧ s = r) ∨ (u ≠ 0 ∧ u ≤ 999999 ∧ s = '.' :: (pad6 u ++ r)) := by
  cases s with
  | nil =>
    simp only [parseFrac] at h
    injection h with h'
    rw [Prod.mk.injEq] at h'
    exact Or.inl ⟨h'.1.symm, h'.2⟩
  | cons x xs =>
    simp only [parseFrac] at h
    split at h
    · next hx =>
      cases hp : parse6 xs with
      | none => simp only [hp] at h; exact Option.noConfusion h
      | some q =>
        obtain ⟨v, r'⟩ := q
        simp only [hp] at h
        split at h
        · exact Option.noConfusion h
        · next hv =>
          injection h with h'
          rw [Prod.mk.injEq] at h'
          obtain ⟨hu, hr⟩ := h'
          subst hu
          subst hr
          obtain ⟨hv99, hxs⟩ := parse6_inv hp
          exact Or.inr ⟨hv, hv99, by rw [hx, hxs]⟩
    · next hx =>
      injection h with h'
      rw [Prod.mk.injEq] at h'
      exact Or.inl ⟨h'.1.symm, h'.2⟩

/-- Canonical date prefixes parse back. -/
theorem parseDate_pad {y mo d : Nat} (hy : y ≤ 9999) (hm : mo ≤ 99)
    (hd : d ≤ 99) (r : List Char) :
    parseDate (pad4 y ++ ('-' :: (pad2 mo ++ ('-' :: (pad2 d ++ r))))) =
      some (y, mo, d, r) := by
  simp only [parseDate, parse4_pad4 hy, expectChar_cons, parse2_pad2 hm,
    parse2_pad2 hd]

/-- A successful date parse came from exactly the canonical prefix. -/
theorem parseDate_inv {s : List Char} {y mo d : Nat} {r : List Char}
    (h : parseDate s = some (y, mo, d, r)) :
    y ≤ 9999 ∧ mo ≤ 99 ∧ d ≤ 99 ∧
      s = pad4 y ++ ('-' :: (pad2 mo ++ ('-' :: (pad2 d ++ r)))) := by
  simp only [parseDate] at h
  cases h4 : parse4 s with
  | none => simp only [h4] at h; exact Option.noConfusion h
  | some p4 =>
    obtain ⟨y', r1⟩ := p4
    simp only [h4] at h
    cases he1 : expectChar '-' r1 with
    | none => simp only [he1] at h; exact Option.noConfusion h
    | some r2 =>
      simp only [he1] at h
      cases h2 : parse2 r2 with
      | none => simp only [h2] at h; exact Option.noConfusion h
      | some p2 =>
        obtain ⟨mo', r3⟩ := p2
        simp only [h2] at h
        cases he2 : expectChar '-' r3 with
        | none => simp only [he2] at h; exact Option.noConfusion h
        | some r4 =>
          simp only [he2] at h
          cases h3 : parse2 r4 with
          | none => simp only [h3] at h; exact Option.noConfusion h
          | some p3 =>
            obtain ⟨d', r5⟩ := p3
            simp only [h3] at h
            injection h with h'
            rw [Prod.mk.injEq] at h'
            obtain ⟨hy', h'⟩ := h'
            rw [Prod.mk.injEq] at h'
            obtain ⟨hmo', h'⟩ := h'
            rw [Prod.mk.injEq] at h'
            obtain ⟨hd', hr'⟩ := h'
            subst hy'
            subst hmo'
            subst hd'
            subst hr'
            obtain ⟨hb4, hs4⟩ := parse4_inv h4
            obtain ⟨hb2, hs2⟩ := parse2_inv h2
            obtain ⟨hb3, hs3⟩ := parse2_inv h3
            refine ⟨hb4, hb2, hb3, ?_⟩
            rw [hs4, expectChar_inv he1, hs2, expectChar_inv he2, hs3]

/-- Canonical time-of-day renderings parse back. -/
theorem parseTime_pad {hh mi se : Nat} (h1 : hh ≤ 99) (h2 : mi ≤ 99)
    (h3 : se ≤ 99) (r : List Char) :
    parseTime (pad2 hh ++ (':' :: (pad2 mi ++ (':' :: (pad2 se ++ r))))) =
      some (hh, mi, se, r) := by
  simp only [parseTime, parse2_pad2 h1, expectChar_cons, parse2_pad2 h2,
    parse2_pad2 h3]

/-- A successful time parse came from exactly the canonical rendering. -/
theorem parseTime_inv {s : List Char} {hh mi se : Nat} {r : List Char}
    (h : parseTime s = some (hh, mi, se, r)) :
    hh ≤ 99 ∧ mi ≤ 99 ∧ se ≤ 99 ∧
      s = pad2 hh ++ (':' :: (pad2 mi ++ (':' :: (pad2 se ++ r)))) := by
  simp only [parseTime] at h
  cases h4 : parse2 s with
  | none => simp only [h4] at h; exact Option.noConfusion h
  | some p4 =>
    obtain ⟨hh', r1⟩ := p4
    simp only [h4] at h
    cases he1 : expectChar ':' r1 with
    | none => simp only [he1] at h; exact Option.noConfusion h
    | some r2 =>
      simp only [he1] at h
      cases h2 : parse2 r2 with
      | none => simp only [h2] at h; exact Option.noConfusion h
      | some p2 =>
        obtain ⟨mi', r3⟩ := p2
        simp only [h2] at h
        cases he2 : expectChar ':' r3 with
        | none => simp only [he2] at h; exact Option.noConfusion h
        | some r4 =>
          simp only [he2] at h
          cases h3 : parse2 r4 with
          | none => simp only [h3] at h; exact Option.noConfusion h
          | some p3 =>
            obtain ⟨se', r5⟩ := p3
            simp only [h3] at h
            injection h with h'
            rw [Prod.mk.injEq] at h'
            obtain ⟨hh'', h'⟩ := h'
            rw [Prod.mk.injEq] at h'
            obtain ⟨hmi', h'⟩ := h'
            rw [Prod.mk.injEq] at h'
            obtain ⟨hse', hr'⟩ := h'
            subst hh''
            subst hmi'
            subst hse'
            subst hr'
            obtain ⟨hb4, hs4⟩ := parse2_inv h4
            obtain ⟨hb2, hs2⟩ := parse2_inv h2
            obtain ⟨hb3, hs3⟩ := parse2_inv h3
            refine ⟨hb4, hb2, hb3, ?_⟩
            rw [hs4, expectChar_inv he1, hs2, expectChar_inv he2, hs3]

/-- Round trip: the parser inverts `isoformat` on well-formed
datetimes. -/
theorem isoParse_isoformat {t : DT} (h : WFdt t) :
    isoParse (isoformat t) = some t := by
  obtain ⟨h1, h2, h3, h4, h5, h6, h7, h8, h9, h10⟩ := h
  have hdm := daysInMonth_le t.year t.month
  have e : isoformat t =
      pad4 t.year ++ ('-' :: (pad2 t.month ++ ('-' :: (pad2 t.day ++
        ('T' :: (pad2 t.hour ++ (':' :: (pad2 t.minute ++ (':' :: (pad2 t.second ++
        ((if t.usec = 0 then [] else '.' :: pad6 t.usec) ++ utcSuffix))))))))))) := by
    simp [isoformat, List.append_assoc]
  rw [e]
  simp only [isoParse,
    parseDate_pad h2 (show t.month ≤ 99 by omega) (show t.day ≤ 99 by omega),
    expectChar_cons,
    parseTime_pad (show t.hour ≤ 99 by omega) (show t.minute ≤ 99 by omega)
      (show t.second ≤ 99 by omega)]
  by_cases hu : t.usec = 0
  · rw [if_pos hu, List.nil_append]
    simp only [parseFrac_utcSuffix]
    rw [if_pos trivial,
      if_pos (show WFdt ⟨t.year, t.month, t.day, t.hour, t.minute, t.second, 0⟩ by
        rw [← hu]
        exact ⟨h1, h2, h3, h4, h5, h6, h7, h8, h9, h10⟩)]
    rw [← hu]
  · rw [if_neg hu, List.cons_append]
    simp only [parseFrac_pad6 h10 hu]
    rw [if_pos trivial,
      if_pos (show WFdt ⟨t.year, t.month, t.day, t.hour, t.minute, t.second, t.usec⟩ from
        ⟨h1, h2, h3, h4, h5, h6, h7, h8, h9, h10⟩)]

/-- Inversion: a successful `isoParse` came from exactly the canonical
rendering of a well-formed datetime. -/
theorem isoParse_inv {s : List Char} {t : DT} (h : isoParse s = some t) :
    WFdt t ∧ s = isoformat t := by
  simp only [isoParse] at h
  cases hd : parseDate s with
  | none => simp only [hd] at h; exact Option.noConfusion h
  | some pd =>
    obtain ⟨y, mo, d, r5⟩ := pd
    simp only [hd] at h
    cases he : expectChar 'T' r5 with
    | none => simp only [he] at h; exact Option.noConfusion h
    | some r6 =>
      simp only [he] at h
      cases ht : parseTime r6 with
      | none => simp only [ht] at h; exact Option.noConfusion h
      | some pt =>
        obtain ⟨hh, mi, se, r11⟩ := pt
        simp only [ht] at h
        cases hf : parseFrac r11 with
        | none => simp only [hf] at h; exact Option.noConfusion h
        | some pf =>
          obtain ⟨us, r12⟩ := pf
          simp only [hf] at h
          split at h
          · next hr12 =>
            split at h
            · next hwf =>
              injection h with h'
              subst h'
              refine ⟨hwf, ?_⟩
              obtain ⟨hby, hbm, hbd, hsd⟩ := parseDate_inv hd
              obtain ⟨hbh, hbmi, hbse, hst⟩ := parseTime_inv ht
              rcases parseFrac_inv hf with ⟨hus, hr11⟩ | ⟨hus, hub, hr11⟩
              · rw [hsd, expectChar_inv he, hst, hr11, hr12]
                simp [isoformat, hus, List.append_assoc]
              · rw [hsd, expectChar_inv he, hst, hr11, hr12]
                simp [isoformat, hus, List.append_assoc]
            · exact Option.noConfusion h
          · exact Option.noConfusion h

/-- Fixed-width hexadecimal renderings parse back, accumulating. -/
theorem parseHexAux_hexPad : ∀ (w acc n : Nat), n < 16 ^ w → ∀ r : List Char,
    parseHexAux w acc (hexPad w n ++ r) = some (acc * 16 ^ w + n, r) := by
  intro w
  induction w with
  | zero =>
    intro acc n hn r
    have hn0 : n = 0 := by omega
    subst hn0
    simp [parseHexAux, hexPad]
  | succ w ih =>
    intro acc n hn r
    have hdig : n / 16 ^ w < 16 := by
      apply Nat.div_lt_of_lt_mul
      calc n < 16 ^ (w + 1) := hn
        _ = 16 ^ w * 16 := by rw [pow_succ]
    have e : hexPad (w + 1) n ++ r =
        hexChar (n / 16 ^ w) :: (hexPad w (n % 16 ^ w) ++ r) := rfl
    rw [e]
    simp only [parseHexAux, parseHexDigit_hexChar _ hdig]
    rw [ih (16 * acc + n / 16 ^ w) (n % 16 ^ w)
      (Nat.mod_lt _ (Nat.pow_pos (by norm_num))) r]
    have hdm : 16 ^ w * (n / 16 ^ w) + n % 16 ^ w = n :=
      Nat.div_add_mod n (16 ^ w)
    have harith : (16 * acc + n / 16 ^ w) * 16 ^ w + n % 16 ^ w =
        acc * 16 ^ (w + 1) + n := by
      calc (16 * acc + n / 16 ^ w) * 16 ^ w + n % 16 ^ w
          = acc * (16 ^ w * 16) + (16 ^ w * (n / 16 ^ w) + n % 16 ^ w) := by
            ring
        _ = acc * (16 ^ w * 16) + n := by rw [hdm]
        _ = acc * 16 ^ (w + 1) + n := by rw [pow_succ]
    rw [harith]

/-- Fixed-width hexadecimal renderings parse back. -/
theorem parseHexN_hexPad {w n : Nat} (h : n < 16 ^ w) (r : List Char) :
    parseHexN w (hexPad w n ++ r) = some (n, r) := by
  unfold parseHexN
  rw [parseHexAux_hexPad w 0 n h r]
  simp

/-- A successful accumulating hexadecimal parse came from exactly the
rendering. -/
theorem parseHexAux_inv : ∀ (w acc : Nat) (s : List Char) (m : Nat)
    (r : List Char), parseHexAux w acc s = some (m, r) →
    ∃ n, n < 16 ^ w ∧ m = acc * 16 ^ w + n ∧ s = hexPad w n ++ r := by
  intro w
  induction w with
  | zero =>
    intro acc s m r h
    simp only [parseHexAux] at h
    injection h with h'
    rw [Prod.mk.injEq] at h'
    obtain ⟨hm, hr⟩ := h'
    exact ⟨0, by norm_num, by omega, by simp [hexPad, hr]⟩
  | succ w ih =>
    intro acc s m r h
    cases s with
    | nil => simp [parseHexAux] at h
    | cons c cs =>
      simp only [parseHexAux] at h
      cases hc : parseHexDigit c with
      | none => simp only [hc] at h; exact Option.noConfusion h
      | some d =>
        simp only [hc] at h
        obtain ⟨n', hn', hm, hs⟩ := ih (16 * acc + d) cs m r h
        obtain ⟨hd15, hcd⟩ := parseHexDigit_inv hc
        have hpow : (0 : Nat) < 16 ^ w := Nat.pow_pos (by norm_num)
        refine ⟨d * 16 ^ w + n', ?_, ?_, ?_⟩
        · calc d * 16 ^ w + n' < d * 16 ^ w + 16 ^ w := by omega
            _ = (d + 1) * 16 ^ w := by ring
            _ ≤ 16 * 16 ^ w := Nat.mul_le_mul_right _ (by omega)
            _ = 16 ^ (w + 1) := by rw [pow_succ]; ring
        · calc m = (16 * acc + d) * 16 ^ w + n' := hm
            _ = acc * 16 ^ (w + 1) + (d * 16 ^ w + n') := by
              rw [pow_succ]; ring
        · have hdiv : (d * 16 ^ w + n') / 16 ^ w = d := by
            rw [mul_comm d, Nat.mul_add_div hpow, Nat.div_eq_of_lt hn',
              Nat.add_zero]
          have hmod : (d * 16 ^ w + n') % 16 ^ w = n' := by
            rw [mul_comm d, Nat.mul_add_mod, Nat.mod_eq_of_lt hn']
          have e : hexPad (w + 1) (d * 16 ^ w + n') =
              hexChar ((d * 16 ^ w + n') / 16 ^ w) ::
                hexPad w ((d * 16 ^ w + n') % 16 ^ w) := rfl
          rw [e, hdiv, hmod, ← hcd, hs]
          rfl

/-- A successful fixed-width hexadecimal parse came from exactly the
rendering. -/
theorem parseHexN_inv {w : Nat} {s : List Char} {n : Nat} {r : List Char}
    (h : parseHexN w s = some (n, r)) : n < 16 ^ w ∧ s = hexPad w n ++ r := by
  obtain ⟨n', hn', hm, hs⟩ := parseHexAux_inv w 0 s n r h
  have hnn : n = n' := by omega
  subst hnn
  exact ⟨hn', hs⟩

/-- A fixed-width hexadecimal rendering with nothing after it parses back
leaving an empty remainder. -/
theorem parseHexN_hexPad_nil {w n : Nat} (h : n < 16 ^ w) :
    parseHexN w (hexPad w n) = some (n, []) := by
  have hp := parseHexN_hexPad h ([])
  rwa [List.append_nil] at hp

/-- Round trip: the parser inverts `uuidStr` on 128-bit values. -/
theorem uuidParse_uuidStr {v : Nat} (h : WFuuid v) :
    uuidParse (uuidStr v) = some v := by
  have hv : v < 16 ^ 32 := by
    calc v < 2 ^ 128 := h
      _ = 16 ^ 32 := by norm_num
  have h8 : v / 16 ^ 24 < 16 ^ 8 := by
    apply Nat.div_lt_of_lt_mul
    calc v < 16 ^ 32 := hv
      _ = 16 ^ 24 * 16 ^ 8 := by norm_num
  have e : uuidStr v =
      hexPad 8 (v / 16 ^ 24) ++ ('-' :: (hexPad 4 (v / 16 ^ 20 % 16 ^ 4) ++
        ('-' :: (hexPad 4 (v / 16 ^ 16 % 16 ^ 4) ++
        ('-' :: (hexPad 4 (v / 16 ^ 12 % 16 ^ 4) ++
        ('-' :: hexPad 12 (v % 16 ^ 12)))))))) := by
    simp [uuidStr, List.append_assoc]
  rw [e]
  simp only [uuidParse, parseHexN_hexPad h8, expectChar_cons,
    parseHexN_hexPad (show v / 16 ^ 20 % 16 ^ 4 < 16 ^ 4 from
      Nat.mod_lt _ (by norm_num)),
    parseHexN_hexPad (show v / 16 ^ 16 % 16 ^ 4 < 16 ^ 4 from
      Nat.mod_lt _ (by norm_num)),
    parseHexN_hexPad (show v / 16 ^ 12 % 16 ^ 4 < 16 ^ 4 from
      Nat.mod_lt _ (by norm_num)),
    parseHexN_hexPad_nil (show v % 16 ^ 12 < 16 ^ 12 from
      Nat.mod_lt _ (by norm_num))]
  rw [if_pos trivial]
  have p4 : (16 : Nat) ^ 4 = 65536 := by norm_num
  have p12 : (16 : Nat) ^ 12 = 281474976710656 := by norm_num
  have p16 : (16 : Nat) ^ 16 = 18446744073709551616 := by norm_num
  have p20 : (16 : Nat) ^ 20 = 1208925819614629174706176 := by norm_num
  have p24 : (16 : Nat) ^ 24 = 79228162514264337593543950336 := by norm_num
  have p32 : (16 : Nat) ^ 32 = 340282366920938463463374607431768211456 := by
    norm_num
  rw [p32] at hv
  have harith : (((v / 16 ^ 24 * 16 ^ 4 + v / 16 ^ 20 % 16 ^ 4) * 16 ^ 4 +
      v / 16 ^ 16 % 16 ^ 4) * 16 ^ 4 + v / 16 ^ 12 % 16 ^ 4) * 16 ^ 12 +
      v % 16 ^ 12 = v := by
    rw [p4, p12, p16, p20, p24]
    omega
  rw [harith]

/-- Inversion: a successful `uuidParse` came from exactly the canonical
rendering of a 128-bit value. -/
theorem uuidParse_inv {s : List Char} {v : Nat} (h : uuidParse s = some v) :
    WFuuid v ∧ s = uuidStr v := by
  simp only [uuidParse] at h
  cases h1 : parseHexN 8 s with
  | none => simp only [h1] at h; exact Option.noConfusion h
  | some q1 =>
    obtain ⟨a, r1⟩ := q1
    simp only [h1] at h
    cases he1 : expectChar '-' r1 with
    | none => simp only [he1] at h; exact Option.noConfusion h
    | some r2 =>
      simp only [he1] at h
      cases h2 : parseHexN 4 r2 with
      | none => simp only [h2] at h; exact Option.noConfusion h
      | some q2 =>
        obtain ⟨b, r3⟩ := q2
        simp only [h2] at h
        cases he2 : expectChar '-' r3 with
        | none => simp only [he2] at h; exact Option.noConfusion h
        | some r4 =>
          simp only [he2] at h
          cases h3 : parseHexN 4 r4 with
          | none => simp only [h3] at h; exact Option.noConfusion h
          | some q3 =>
            obtain ⟨c, r5⟩ := q3
            simp only [h3] at h
            cases he3 : expectChar '-' r5 with
            | none => simp only [he3] at h; exact Option.noConfusion h
            | some r6 =>
              simp only [he3] at h
              cases h4 : parseHexN 4 r6 with
              | none => simp only [h4] at h; exact Option.noConfusion h
              | some q4 =>
                obtain ⟨d, r7⟩ := q4
                simp only [h4] at h
                cases he4 : expectChar '-' r7 with
                | none => simp only [he4] at h; exact Option.noConfusion h
                | some r8 =>
                  simp only [he4] at h
                  cases h5 : parseHexN 12 r8 with
                  | none => simp only [h5] at h; exact Option.noConfusion h
                  | some q5 =>
                    obtain ⟨e, r9⟩ := q5
                    simp only [h5] at h
                    split at h
                    · next hr9 =>
                      injection h with h'
                      obtain ⟨ha8, hsa⟩ := parseHexN_inv h1
                      obtain ⟨hb4, hsb⟩ := parseHexN_inv h2
                      obtain ⟨hc4, hsc⟩ := parseHexN_inv h3
                      obtain ⟨hd4, hsd⟩ := parseHexN_inv h4
                      obtain ⟨he12, hse⟩ := parseHexN_inv h5
                      have p4 : (16 : Nat) ^ 4 = 65536 := by norm_num
                      have p8 : (16 : Nat) ^ 8 = 4294967296 := by norm_num
                      have p12 : (16 : Nat) ^ 12 = 281474976710656 := by
                        norm_num
                      have p16 : (16 : Nat) ^ 16 = 18446744073709551616 := by
                        norm_num
                      have p20 : (16 : Nat) ^ 20 =
                          1208925819614629174706176 := by norm_num
                      have p24 : (16 : Nat) ^ 24 =
                          79228162514264337593543950336 := by norm_num
                      have p128 : (2 : Nat) ^ 128 =
                          340282366920938463463374607431768211456 := by
                        norm_num
                      rw [p4] at hb4 hc4 hd4
                      rw [p8] at ha8
                      rw [p12] at he12
                      have hveq : v = (((a * 16 ^ 4 + b) * 16 ^ 4 + c) *
                          16 ^ 4 + d) * 16 ^ 12 + e := h'.symm
                      rw [p4, p12] at hveq
                      constructor
                      · show v < 2 ^ 128
                        rw [p128]
                        omega
                      · have hga :
                            v / 79228162514264337593543950336 = a := by
                          omega
                        have hgb :
                            v / 1208925819614629174706176 % 65536 = b := by
                          omega
                        have hgc :
                            v / 18446744073709551616 % 65536 = c := by
                          omega
                        have hgd :
                            v / 281474976710656 % 65536 = d := by
                          omega
                        have hge : v % 281474976710656 = e := by omega
                        rw [hsa, expectChar_inv he1, hsb, expectChar_inv he2,
                          hsc, expectChar_inv he3, hsd, expectChar_inv he4,
                          hse, hr9]
                        simp [uuidStr, hga, hgb, hgc, hgd, hge,
                          List.append_assoc]
                    · exact Option.noConfusion h

/-- The separator character occurs in no bounded two-digit rendering. -/
theorem hash_not_mem_pad2 {n : Nat} (h : n ≤ 99) : '#' ∉ pad2 n := by
  have g1 := digitChar_ne_hash (n / 10) (by omega)
  have g2 := digitChar_ne_hash (n % 10) (by omega)
  intro hm
  rcases List.mem_cons.mp hm with he | hm'
  · exact g1 he.symm
  · rcases List.mem_cons.mp hm' with he | hm''
    · exact g2 he.symm
    · exact List.not_mem_nil _ hm''

/-- The separator character occurs in no bounded four-digit rendering. -/
theorem hash_not_mem_pad4 {n : Nat} (h : n ≤ 9999) : '#' ∉ pad4 n := by
  intro hm
  rcases List.mem_append.mp hm with hm' | hm'
  · exact hash_not_mem_pad2 (show n / 100 ≤ 99 by omega) hm'
  · exact hash_not_mem_pad2 (show n % 100 ≤ 99 by omega) hm'

/-- The separator character occurs in no bounded six-digit rendering. -/
theorem hash_not_mem_pad6 {n : Nat} (h : n ≤ 999999) : '#' ∉ pad6 n := by
  intro hm
  rcases List.mem_append.mp hm with hm' | hm'
  · exact hash_not_mem_pad2 (show n / 10000 ≤ 99 by omega) hm'
  · exact hash_not_mem_pad4 (show n % 10000 ≤ 9999 by omega) hm'

/-- The separator character occurs nowhere in a well-formed timestamp
rendering, so splitting the sort key on it leaves the timestamp intact. -/
theorem hash_not_mem_iso {t : DT} (h : WFdt t) : '#' ∉ isoformat t := by
  obtain ⟨h1, h2, h3, h4, h5, h6, h7, h8, h9, h10⟩ := h
  have p1 := eq_false (hash_not_mem_pad4 (show t.year ≤ 9999 by omega))
  have p2 := eq_false (hash_not_mem_pad2 (show t.month ≤ 99 by omega))
  have hdm := daysInMonth_le t.year t.month
  have p3 := eq_false (hash_not_mem_pad2 (show t.day ≤ 99 by omega))
  have p4 := eq_false (hash_not_mem_pad2 (show t.hour ≤ 99 by omega))
  have p5 := eq_false (hash_not_mem_pad2 (show t.minute ≤ 99 by omega))
  have p6 := eq_false (hash_not_mem_pad2 (show t.second ≤ 99 by omega))
  have p7 := eq_false (hash_not_mem_pad6 (show t.usec ≤ 999999 by omega))
  have q1 : ('#' = '-') = False := by decide
  have q2 : ('#' = 'T') = False := by decide
  have q3 : ('#' = ':') = False := by decide
  have q4 : ('#' = '.') = False := by decide
  have q5 : ('#' ∈ utcSuffix) = False := by decide
  intro hm
  rw [isoformat] at hm
  by_cases hu : t.usec = 0
  · rw [if_pos hu] at hm
    simp only [List.nil_append, List.append_nil, List.mem_append,
      List.mem_cons, p1, p2, p3, p4, p5, p6, q1, q2, q3, q5, or_self,
      false_or, or_false] at hm
  · rw [if_neg hu] at hm
    simp only [List.cons_append, List.mem_append, List.mem_cons, p1, p2,
      p3, p4, p5, p6, p7, q1, q2, q3, q4, q5, or_self, false_or,
      or_false] at hm

/-- The separator character occurs in no bounded hexadecimal rendering. -/
theorem hash_not_mem_hexPad : ∀ (w n : Nat), n < 16 ^ w → '#' ∉ hexPad w n := by
  intro w
  induction w with
  | zero => intro n hn; simp [hexPad]
  | succ w ih =>
    intro n hn hm
    have hd : n / 16 ^ w < 16 := by
      apply Nat.div_lt_of_lt_mul
      calc n < 16 ^ (w + 1) := hn
        _ = 16 ^ w * 16 := by rw [pow_succ]
    rw [hexPad] at hm
    rcases List.mem_cons.mp hm with he | hm'
    · exact hexChar_ne_hash _ hd he.symm
    · exact ih (n % 16 ^ w) (Nat.mod_lt _ (Nat.pow_pos (by norm_num))) hm'

/-- The separator character occurs nowhere in a rendered UUID. -/
theorem hash_not_mem_uuidStr {v : Nat} (h : WFuuid v) : '#' ∉ uuidStr v := by
  have h8 : v / 16 ^ 24 < 16 ^ 8 := by
    apply Nat.div_lt_of_lt_mul
    calc v < 2 ^ 128 := h
      _ = 16 ^ 24 * 16 ^ 8 := by norm_num
  have p1 := eq_false (hash_not_mem_hexPad 8 _ h8)
  have p2 := eq_false (hash_not_mem_hexPad 4 (v / 16 ^ 20 % 16 ^ 4)
    (Nat.mod_lt _ (by norm_num)))
  have p3 := eq_false (hash_not_mem_hexPad 4 (v / 16 ^ 16 % 16 ^ 4)
    (Nat.mod_lt _ (by norm_num)))
  have p4 := eq_false (hash_not_mem_hexPad 4 (v / 16 ^ 12 % 16 ^ 4)
    (Nat.mod_lt _ (by norm_num)))
  have p5 := eq_false (hash_not_mem_hexPad 12 (v % 16 ^ 12)
    (Nat.mod_lt _ (by norm_num)))
  have q1 : ('#' = '-') = False := by decide
  intro hm
  simp only [uuidStr, List.mem_append, List.mem_cons, p1, p2, p3, p4, p5,
    q1, or_self, false_or, or_false] at hm

/-- Unfolding equation for `splitOnChar` on a cons cell once the split of
the tail is known. -/
theorem splitOnChar_cons (c x : Char) (xs : List Char) {z : List Char}
    {zs : List (List Char)} (hs : splitOnChar c xs = z :: zs) :
    splitOnChar c (x :: xs) =
      if x = c then [] :: z :: zs else (x :: z) :: zs := by
  rw [splitOnChar, hs]

/-- `splitOnChar` always produces at least one part. -/
theorem splitOnChar_ne_nil (c : Char) : ∀ s : List Char,
    splitOnChar c s ≠ [] := by
  intro s
  induction s with
  | nil => simp [splitOnChar]
  | cons x xs ih =>
    cases hs : splitOnChar c xs with
    | nil => exact absurd hs ih
    | cons y ys =>
      rw [splitOnChar_cons c x xs hs]
      by_cases hx : x = c
      · rw [if_pos hx]; simp
      · rw [if_neg hx]; simp

/-- Splitting a separator-free string yields that single part. -/
theorem splitOnChar_eq_self {c : Char} : ∀ {a : List Char}, c ∉ a →
    splitOnChar c a = [a] := by
  intro a
  induction a with
  | nil => intro _; rfl
  | cons x xs ih =>
    intro hm
    have hx : x ≠ c := by rintro rfl; exact hm (List.mem_cons_self x xs)
    have hxs : c ∉ xs := fun hmm => hm (List.mem_cons_of_mem x hmm)
    rw [splitOnChar_cons c x xs (ih hxs), if_neg hx]

/-- Splitting past a separator-free head part peels it off. -/
theorem splitOnChar_append_cons {c : Char} : ∀ {a : List Char}, c ∉ a →
    ∀ rest : List Char,
      splitOnChar c (a ++ c :: rest) = a :: splitOnChar c rest := by
  intro a
  induction a with
  | nil =>
    intro _ rest
    rw [List.nil_append]
    cases hs : splitOnChar c rest with
    | nil => exact absurd hs (splitOnChar_ne_nil c rest)
    | cons y ys => rw [splitOnChar_cons c c rest hs, if_pos rfl]
  | cons x xs ih =>
    intro hm rest
    have hx : x ≠ c := by rintro rfl; exact hm (List.mem_cons_self x xs)
    have hxs : c ∉ xs := fun hmm => hm (List.mem_cons_of_mem x hmm)
    rw [List.cons_append]
    cases hs : splitOnChar c rest with
    | nil => exact absurd hs (splitOnChar_ne_nil c rest)
    | cons y ys =>
      have htail : splitOnChar c (xs ++ c :: rest) = xs :: y :: ys := by
        rw [ih hxs rest, hs]
      rw [splitOnChar_cons c x (xs ++ c :: rest) htail, if_neg hx]

/-- Inverting one step of `splitOnChar`: the head part either is the whole
separator-free string, or is a separator-free prefix cut at the first
separator. -/
theorem splitOnChar_head_tail (c : Char) : ∀ s : List Char,
    ∀ y ys, splitOnChar c s = y :: ys →
      (ys = [] ∧ s = y ∧ c ∉ y) ∨
      (∃ rest, s = y ++ c :: rest ∧ c ∉ y ∧ splitOnChar c rest = ys) := by
  intro s
  induction s with
  | nil =>
    intro y ys h
    rw [splitOnChar] at h
    injection h with hy hys
    exact Or.inl ⟨hys.symm, hy, by rw [← hy]; simp⟩
  | cons x xs ih =>
    intro y ys h
    cases hs : splitOnChar c xs with
    | nil => exact absurd hs (splitOnChar_ne_nil c xs)
    | cons z zs =>
      rw [splitOnChar_cons c x xs hs] at h
      by_cases hx : x = c
      · rw [if_pos hx] at h
        injection h with hy hys
        refine Or.inr ⟨xs, ?_, ?_, ?_⟩
        · rw [← hy, hx]
          rfl
        · rw [← hy]; simp
        · rw [hs, hys]
      · rw [if_neg hx] at h
        injection h with hy hys
        rcases ih z zs hs with ⟨hzs, hxz, hnz⟩ | ⟨rest, hxr, hnz, hsr⟩
        · refine Or.inl ⟨?_, ?_, ?_⟩
          · rw [← hys, hzs]
          · rw [← hy, hxz]
          · rw [← hy]
            intro hmem
            rcases List.mem_cons.mp hmem with he | hm'
            · exact hx he.symm
            · exact hnz hm'
        · refine Or.inr ⟨rest, ?_, ?_, ?_⟩
          · rw [← hy, hxr]
            rfl
          · rw [← hy]
            intro hmem
            rcases List.mem_cons.mp hmem with he | hm'
            · exact hx he.symm
            · exact hnz hm'
          · rw [hsr, hys]

/-- Splitting the rendered sort key on the separator yields exactly the
three canonical parts. -/
theorem splitOnChar_make_job_sk {t : DT} {id : Nat} (ht : WFdt t)
    (hid : WFuuid id) : splitOnChar '#' (make_job_sk t id) =
      [scheduledWord, isoformat t, uuidStr id] := by
  have h0 : '#' ∉ scheduledWord := by decide
  have h1 : '#' ∉ isoformat t := hash_not_mem_iso ht
  have h2 : '#' ∉ uuidStr id := hash_not_mem_uuidStr hid
  have e : make_job_sk t id =
      scheduledWord ++ '#' :: (isoformat t ++ '#' :: uuidStr id) := by
    simp [make_job_sk, List.append_assoc]
  rw [e, splitOnChar_append_cons h0, splitOnChar_append_cons h1,
    splitOnChar_eq_self h2]

/-- Round trip: `parse_job_sk` recovers the pair encoded by `make_job_sk`
on well-formed inputs. -/
theorem parse_job_sk_make {t : DT} {id : Nat} (ht : WFdt t)
    (hid : WFuuid id) : parse_job_sk (make_job_sk t id) = some (t, id) := by
  rw [parse_job_sk, splitOnChar_make_job_sk ht hid]
  simp only [if_pos trivial]
  rw [isoParse_isoformat ht, uuidParse_uuidStr hid]

/-- Inversion: a successful `parse_job_sk` came from exactly the rendering
of a well-formed pair. -/
theorem parse_job_sk_inv {sk : List Char} {t : DT} {id : Nat}
    (h : parse_job_sk sk = some (t, id)) :
    WFdt t ∧ WFuuid id ∧ sk = make_job_sk t id := by
  unfold parse_job_sk at h
  cases hs : splitOnChar '#' sk with
  | nil =>
    rw [hs] at h
    exact Option.noConfusion h
  | cons p0 r =>
    rw [hs] at h
    cases r with
    | nil => exact Option.noConfusion h
    | cons p1 r2 =>
      cases r2 with
      | nil => exact Option.noConfusion h
      | cons p2 r3 =>
        cases r3 with
        | cons q qs => exact Option.noConfusion h
        | nil =>
          have h1 : (if p0 = scheduledWord then
              match isoParse p1, uuidParse p2 with
              | some t', some v' => some (t', v')
              | _, _ => none
            else none) = some (t, id) := h
          by_cases hp0 : p0 = scheduledWord
          · rw [if_pos hp0] at h1
            cases hiso : isoParse p1 with
            | none =>
              cases huu : uuidParse p2 with
              | none =>
                rw [hiso, huu] at h1
                exact Option.noConfusion h1
              | some v' =>
                rw [hiso, huu] at h1
                exact Option.noConfusion h1
            | some t' =>
              cases huu : uuidParse p2 with
              | none =>
                rw [hiso, huu] at h1
                exact Option.noConfusion h1
              | some v' =>
                rw [hiso, huu] at h1
                have h2 : ((t', v') : DT × Nat) = (t, id) :=
                  Option.some.inj h1
                rw [Prod.mk.injEq] at h2
                obtain ⟨ht', hv'⟩ := h2
                subst ht'
                subst hv'
                obtain ⟨hwt, hp1⟩ := isoParse_inv hiso
                obtain ⟨hwu, hp2⟩ := uuidParse_inv huu
                refine ⟨hwt, hwu, ?_⟩
                rcases splitOnChar_head_tail '#' sk p0 [p1, p2] hs with
                  ⟨hys, _, _⟩ | ⟨r1, hsk, _, hsp⟩
                · exact absurd hys (by simp)
                · rcases splitOnChar_head_tail '#' r1 p1 [p2] hsp with
                    ⟨hys, _, _⟩ | ⟨r2, hr1, _, hsp2⟩
                  · exact absurd hys (by simp)
                  · rcases splitOnChar_head_tail '#' r2 p2 [] hsp2 with
                      ⟨_, hr2, _⟩ | ⟨r3, _, _, hsp3⟩
                    · rw [hsk, hr1, hr2, hp0, hp1, hp2]
                      simp [make_job_sk, List.append_assoc]
                    · exact absurd hsp3 (splitOnChar_ne_nil '#' r3)
          · rw [if_neg hp0] at h1
            exact Option.noConfusion h1

/-- C9: the sort-key codec is a bijection on well-formed inputs:
`parse_job_sk` inverts `make_job_sk` on every well-formed (datetime, UUID)
pair; `make_job_sk` is injective on such pairs; and every sort key that
`parse_job_sk` accepts is exactly the canonical
`scheduled#<ISO8601 timestamp>#<UUID>` rendering of a well-formed pair, so
every other string is rejected (the `none` modelling the raised
`ValueError`). -/
theorem claim_C9_sort_key_codec :
    (∀ (t : DT) (id : Nat), WFdt t → WFuuid id →
      parse_job_sk (make_job_sk t id) = some (t, id)) ∧
    (∀ (t₁ t₂ : DT) (id₁ id₂ : Nat), WFdt t₁ → WFuuid id₁ → WFdt t₂ →
      WFuuid id₂ → make_job_sk t₁ id₁ = make_job_sk t₂ id₂ →
      t₁ = t₂ ∧ id₁ = id₂) ∧
    (∀ (sk : List Char) (t : DT) (id : Nat),
      parse_job_sk sk = some (t, id) →
      WFdt t ∧ WFuuid id ∧ sk = make_job_sk t id) := by
  refine ⟨?_, ?_, ?_⟩
  · intro t id ht hid
    exact parse_job_sk_make ht hid
  · intro t₁ t₂ id₁ id₂ ha hb hc hd heq
    have e1 := parse_job_sk_make ha hb
    have e2 := parse_job_sk_make hc hd
    rw [heq, e2] at e1
    injection e1 with e'
    rw [Prod.mk.injEq] at e'
    exact ⟨e'.1.symm, e'.2.symm⟩
  · intro sk t id h
    exact parse_job_sk_inv h

/-- The codec bijection instantiated at the sample timestamp and UUID. -/
theorem claim_C9_sort_key_codec_witness :
    WFdt dt0 ∧ WFuuid uu0 ∧
      parse_job_sk (make_job_sk dt0 uu0) = some (dt0, uu0) :=
  ⟨by decide, by decide,
    claim_C9_sort_key_codec.1 dt0 uu0 (by decide) (by decide)⟩

end CompanionMemory
